import Mathlib

/-!
Verification development for the `hugo-preview` VS Code extension
(`src/extension.ts`, plus the earlier revision of the same file).

The TypeScript source is shallowly embedded here:

* pure string manipulation is modelled on `List Char` / `String`;
* the Node.js `path` module (POSIX flavour) and the WHATWG `URL`
  pathname accessor are modelled explicitly, following the Node.js
  reference implementations;
* functions that touch the outside world (`execFile`, the filesystem,
  VS Code configuration and message boxes) are modelled by passing the
  outcomes of those external calls as explicit oracle parameters and by
  recording the externally visible actions the code performs;
* the Hugo server child-process lifecycle is modelled as a small
  transition system over event traces.

All definitions are computable so that concrete runs can be evaluated
inside proofs.
-/

namespace HugoPreview

/-! ## Basic character-list utilities -/

/-- Split a character list at every occurrence of the character `c`.
Model of the JavaScript `String.prototype.split` with a one-character
separator: `"".split(c) = [""]`, separators at the ends produce empty
fields. -/
def splitCharsOn (c : Char) : List Char → List (List Char)
  | [] => [[]]
  | x :: xs =>
    if x = c then [] :: splitCharsOn c xs
    else
      match splitCharsOn c xs with
      | [] => [[x]]
      | h :: t => (x :: h) :: t

/-- String-level wrapper for `splitCharsOn`. -/
def splitOnChar (c : Char) (s : String) : List String :=
  (splitCharsOn c s.data).map (fun l => String.mk l)

/-- Join a list of character-list segments with a separator character.
Model of `Array.prototype.join` with a one-character separator. -/
def joinSegs (c : Char) : List (List Char) → List Char
  | [] => []
  | [x] => x
  | x :: xs => x ++ c :: joinSegs c xs

/-- Whitespace as recognised by the JavaScript `trim` (spaces, tabs and
line terminators; we use the Lean whitespace predicate, which agrees on
every character the program actually handles). -/
def jsWhitespace (c : Char) : Bool := c.isWhitespace

/-- Model of the JavaScript `String.prototype.trim`: strip whitespace
from both ends. -/
def jsTrim (s : String) : String :=
  String.mk (((s.data.dropWhile jsWhitespace).reverse.dropWhile jsWhitespace).reverse)

/-- Model of `headers.indexOf(x)` returning `none` for `-1`. -/
def idxOf? (x : String) : List String → Option Nat
  | [] => none
  | y :: ys => if y = x then some 0 else (idxOf? x ys).map (· + 1)

/-- Boolean string-prefix test; model of `String.prototype.startsWith`. -/
def strStartsWith (s pre : String) : Bool := pre.data.isPrefixOf s.data

/-! ## POSIX path model (Node.js `path.posix`)

The extension manipulates paths with `path.join`, `path.resolve`,
`path.relative`, `path.dirname`, `path.basename` and `path.sep`.  We
model the POSIX flavour of the Node.js implementation. -/

/-- One segment of the resolution loop in Node's `normalizeString`.
The accumulator holds resolved segments in reverse order.  Empty
segments and `"."` are skipped; `".."` pops a normal segment, and when
nothing can be popped it is kept only when `allowAboveRoot` is true
(relative paths). -/
def resolveStep (allowAboveRoot : Bool) (acc : List (List Char)) (seg : List Char) :
    List (List Char) :=
  if seg = [] ∨ seg = ['.'] then acc
  else if seg = ['.', '.'] then
    match acc with
    | [] => if allowAboveRoot then [['.', '.']] else []
    | top :: tl =>
      if top = ['.', '.'] then
        (if allowAboveRoot then ['.', '.'] :: top :: tl else top :: tl)
      else tl
  else seg :: acc

/-- Stack-based resolution of path segments; the segment loop of Node's
`normalizeString`. -/
def resolveSegs (allowAboveRoot : Bool) : List (List Char) → List (List Char) → List (List Char)
  | acc, [] => acc
  | acc, seg :: rest => resolveSegs allowAboveRoot (resolveStep allowAboveRoot acc seg) rest

/-- Reassemble a normalized path from its absolute/trailing-separator
flags and the resolved segment stack (in reverse order), following the
tail of Node's `path.posix.normalize`. -/
def normAssemble (isAbs trail : Bool) (resolved : List (List Char)) : String :=
  let core := joinSegs '/' resolved.reverse
  if core = [] then
    if isAbs then "/" else if trail then "./" else "."
  else
    let core := if trail then core ++ ['/'] else core
    if isAbs then String.mk ('/' :: core) else String.mk core

/-- Model of Node's `path.posix.normalize`. -/
def posixNormalize (s : String) : String :=
  if s = "" then "."
  else
    let isAbs : Bool := s.data.head? = some '/'
    let trail : Bool := s.data.getLast? = some '/'
    normAssemble isAbs trail (resolveSegs (!isAbs) [] (splitCharsOn '/' s.data))

/-- Model of Node's `path.posix.join`: drop empty arguments, join the
rest with `"/"`, and normalize; with no non-empty argument the result is
`"."`. -/
def pathJoin (parts : List String) : String :=
  let ne := parts.filter (fun p => p ≠ "")
  if ne = [] then "." else posixNormalize (String.mk (joinSegs '/' (ne.map String.data)))

/-- Model of Node's `path.posix.resolve` with a single argument and an
explicit current working directory. -/
def pathResolve (cwd p : String) : String :=
  let s : String := if p.data.head? = some '/' then p else if p = "" then cwd else cwd ++ "/" ++ p
  let isAbs := s.data.head? = some '/'
  let core := joinSegs '/' ((resolveSegs (!isAbs) [] (splitCharsOn '/' s.data)).reverse)
  if isAbs then (if core = [] then "/" else String.mk ('/' :: core))
  else (if core = [] then "." else String.mk core)

/-- Assembly step of `dirnameChars` from the first character and the
backward scan's remainder (the reversed tail, with trailing separators
and then the last component removed). -/
def dirnameAux (c0 : Char) : List Char → List Char
  | [] => if c0 = '/' then ['/'] else ['.']
  | _ :: [] => if c0 = '/' then ['/', '/'] else [c0]
  | _ :: tl => c0 :: tl.reverse

/-- Model of Node's `path.posix.dirname`: scan backwards past trailing
separators to the separator before the last component; `c0` is examined
only through the has-root test, matching the loop bound `i ≥ 1`. -/
def dirnameChars (l : List Char) : List Char :=
  match l with
  | [] => ['.']
  | c0 :: rest => dirnameAux c0 ((rest.reverse.dropWhile (· = '/')).dropWhile (· ≠ '/'))

/-- String-level `path.posix.dirname`. -/
def dirname (s : String) : String := String.mk (dirnameChars s.data)

/-- Suffix-stripping step of `basename(p, ext)`: a non-empty `ext` is
removed when it is a proper suffix of the component. -/
def basenameStrip (ext name : List Char) : List Char :=
  if ext ≠ [] ∧ ext.length < name.length ∧ ext.isSuffixOf name then
    name.take (name.length - ext.length)
  else name

/-- Model of Node's `path.posix.basename(p, ext)`: the last path
component ignoring trailing separators, with a non-empty `ext` suffix
stripped unless the component is exactly `ext`. -/
def basenameExtChars (l ext : List Char) : List Char :=
  basenameStrip ext (((l.reverse.dropWhile (· = '/')).takeWhile (· ≠ '/')).reverse)

/-- String-level `path.posix.basename(p, ext)`. -/
def basenameExt (s ext : String) : String := String.mk (basenameExtChars s.data ext.data)

/-- Length of the common segment-wise prefix of two segment lists. -/
def commonPrefixLen : List (List Char) → List (List Char) → Nat
  | x :: xs, y :: ys => if x = y then commonPrefixLen xs ys + 1 else 0
  | _, _ => 0

/-- Model of Node's `path.posix.relative(from, to)` (with an explicit
cwd used to resolve the two arguments): resolve both paths, drop the
common leading segments, and climb with `".."` for every remaining
segment of `from`. -/
def pathRelative (cwd fromP toP : String) : String :=
  let f := (splitCharsOn '/' (pathResolve cwd fromP).data).filter (fun seg => seg ≠ [])
  let t := (splitCharsOn '/' (pathResolve cwd toP).data).filter (fun seg => seg ≠ [])
  let n := commonPrefixLen f t
  String.mk (joinSegs '/' (List.replicate (f.length - n) ['.', '.'] ++ t.drop n))

/-! ## URL model

Model of the platform's WHATWG `URL` constructor restricted to the
`http`/`https` URLs that Hugo permalinks are: `new URL(s).pathname`
returns `some pathname` when parsing succeeds and `none` when the
constructor would throw.  For a special scheme an empty path reads as
`"/"`; the path ends at the first `?` or `#`. -/
def urlPathname (s : String) : Option String :=
  let afterScheme : Option (List Char) :=
    if strStartsWith s "http://" then some (s.data.drop 7)
    else if strStartsWith s "https://" then some (s.data.drop 8)
    else none
  match afterScheme with
  | none => none
  | some rest =>
    let host := rest.takeWhile (fun c => c != '/' && c != '?' && c != '#')
    if host = [] then none
    else
      match rest.drop host.length with
      | [] => some "/"
      | c :: cs =>
        if c = '/' then some (String.mk ((c :: cs).takeWhile (fun d => d != '?' && d != '#')))
        else some "/"

/-! ## `resolveHtmlPathByHugoList`

Embedding of `resolveHtmlPathByHugoList` from `src/extension.ts`
(lines 868–927).  The `hugo list all` child process is modelled by
passing its stdout as an argument; uncaught platform exceptions
(`undefined.replace`, a throwing `new URL`) are modelled as dedicated
error values, since a JavaScript `throw` is a `throw` either way. -/

/-- The distinguishable ways `resolveHtmlPathByHugoList` can throw. -/
inductive ListErr where
  /-- `error.hugoListEmpty`: fewer than two lines of output. -/
  | listEmpty
  /-- `error.hugoListInvalidFormat`: missing `path` or `permalink` header. -/
  | invalidFormat
  /-- `error.hugoPermalinkMissing`: matching row with falsy permalink. -/
  | permalinkMissing
  /-- Uncaught `TypeError`: a scanned row is too short to have a `path`
  column, so `cols[idxPath]` is `undefined` and `.replace` throws. -/
  | typeError
  /-- Uncaught exception from `new URL(permalink)`. -/
  | urlError
  /-- `error.htmlNotGenerated`: no data row matched the target path. -/
  | htmlNotGenerated
deriving DecidableEq

/-- Backslash normalisation used by `resolveHtmlPathByHugoList`:
`p.replace(/\\/g, "/")`. -/
def normalizeSlashes (s : String) : String :=
  String.mk (s.data.map (fun c => if c = '\\' then '/' else c))

/-- Step ④ of `resolveHtmlPathByHugoList`: from a permalink, the path of
the generated HTML under `outDir`.  `none` models a throwing
`new URL(permalink)`. -/
def htmlPathFromPermalink (outDir permalink : String) : Option String :=
  match urlPathname permalink with
  | none => none
  | some pn =>
    some (pathJoin [outDir, pathJoin [String.mk (pn.data.dropWhile (· = '/')), "index.html"]])

/-- The row-scanning loop (step ③) of `resolveHtmlPathByHugoList`. -/
def scanRows (idxPath idxPermalink : Nat) (targetPath outDir : String) :
    List String → Except ListErr String
  | [] => .error .htmlNotGenerated
  | line :: rest =>
    let cols := splitOnChar ',' line
    match cols.get? idxPath with
    | none => .error .typeError
    | some pcol =>
      if normalizeSlashes pcol ≠ targetPath then
        scanRows idxPath idxPermalink targetPath outDir rest
      else
        let permalink := cols.getD idxPermalink ""
        if permalink = "" then .error .permalinkMissing
        else
          match htmlPathFromPermalink outDir permalink with
          | none => .error .urlError
          | some htmlPath => .ok htmlPath

/-- Embedding of `resolveHtmlPathByHugoList`.  `stdout` is the output of
`hugo --source <workspace> list all`. -/
def resolveHtmlPathByHugoList (stdout outDir contentRelPath : String) : Except ListErr String :=
  let lines := splitOnChar '\n' (jsTrim stdout)
  if lines.length < 2 then .error .listEmpty
  else
    let headers := splitOnChar ',' (lines.headD "")
    match idxOf? "path" headers, idxOf? "permalink" headers with
    | some idxPath, some idxPermalink =>
      let targetPath := normalizeSlashes ("content/" ++ contentRelPath)
      scanRows idxPath idxPermalink targetPath outDir (lines.tail)
    | _, _ => .error .invalidFormat

/-- A data row at which the scan of `resolveHtmlPathByHugoList` stops:
its backslash-normalised `path` column equals the target, or it is too
short to contain the `path` column at all. -/
def rowStops (idxPath : Nat) (targetPath : String) (line : String) : Bool :=
  match (splitOnChar ',' line).get? idxPath with
  | none => true
  | some pcol => normalizeSlashes pcol = targetPath

/-- The outcome `resolveHtmlPathByHugoList` produces from the row the
scan stops at. -/
def rowOutcome (idxPath idxPermalink : Nat) (outDir : String) (line : String) :
    Except ListErr String :=
  let cols := splitOnChar ',' line
  match cols.get? idxPath with
  | none => .error .typeError
  | some _ =>
    let permalink := cols.getD idxPermalink ""
    if permalink = "" then .error .permalinkMissing
    else
      match htmlPathFromPermalink outDir permalink with
      | none => .error .urlError
      | some htmlPath => .ok htmlPath

/-- Reference description of `resolveHtmlPathByHugoList`, written after
the (amended) specification words rather than after the loop in the
source: the scan stops at the first data row that either matches the
target path or is too short to contain the `path` column, and the
outcome is determined by that row alone — `TypeError` for a short row,
the missing-permalink error for a matching row with an empty permalink
column, the URL error for an unparseable permalink, and otherwise the
join of `outDir`, the permalink's URL pathname with leading slashes
stripped, and `index.html`.  With no such row the not-generated error is
thrown. -/
def resolveHtmlPathSpec (stdout outDir contentRelPath : String) : Except ListErr String :=
  let lines := splitOnChar '\n' (jsTrim stdout)
  if lines.length < 2 then .error .listEmpty
  else
    let headers := splitOnChar ',' (lines.headD "")
    match idxOf? "path" headers, idxOf? "permalink" headers with
    | some idxPath, some idxPermalink =>
      let targetPath := normalizeSlashes ("content/" ++ contentRelPath)
      match (lines.tail).find? (rowStops idxPath targetPath) with
      | none => .error .htmlNotGenerated
      | some line => rowOutcome idxPath idxPermalink outDir line
    | _, _ => .error .invalidFormat

/-- The HTML location used by the older revision (`src/unnamed/part_000`
lines 131–139): `path.join(outDir, path.dirname(relPath),
path.basename(relPath, ".md"), "index.html")`. -/
def oldRevisionHtmlPath (outDir relPath : String) : String :=
  pathJoin [outDir, dirname relPath, basenameExt relPath ".md", "index.html"]

/-! ## `rewriteRootPaths`

Embedding of `rewriteRootPaths` (both revisions are identical): three
sequential global string replacements.  `replaceAllFuel` models
`String.prototype.replace` with a `/…/g` literal pattern and a string
replacement: a single left-to-right scan with non-overlapping matches,
where each match inserts the replacement template expanded by
GetSubstitution (ECMA-262): `$$` is a dollar sign, `$&` the matched
text, `` $` `` the part of the subject before the match, `$'` the part
after it, and — the three regexes having no capture groups and no named
groups — every other `$`-sequence stands for itself.  The fuel argument
only makes the recursion structural; it is always instantiated with the
length of the scanned list, which bounds the recursion depth.
`replaceAllFuelLit` is the same scan with the template inserted
literally; it is a proof device, equal to the full scan whenever the
replacement contains no `$` (`replaceAllFuel_nodollar`). -/

def replaceAllFuelLit (pat rep : List Char) : Nat → List Char → List Char
  | _, [] => []
  | 0, l => l
  | fuel + 1, x :: xs =>
    if pat ≠ [] ∧ pat.isPrefixOf (x :: xs) then
      rep ++ replaceAllFuelLit pat rep fuel (xs.drop (pat.length - 1))
    else x :: replaceAllFuelLit pat rep fuel xs

/-- Literal-insertion global replacement (the `$`-free special case). -/
def replaceAllCharsLit (pat rep l : List Char) : List Char :=
  replaceAllFuelLit pat rep l.length l

/-- GetSubstitution for a groupless regex: expand a replacement
template at a match, given the matched text and the parts of the
subject string before and after the match.  The character codes 96 and
39 are the backquote and the single quote of `` $` `` and `$'`. -/
def expandDollar (matched before after : List Char) : List Char → List Char
  | [] => []
  | c :: rest =>
    if c = '$' then
      match rest with
      | [] => ['$']
      | d :: r =>
        if d = '$' then '$' :: expandDollar matched before after r
        else if d = '&' then matched ++ expandDollar matched before after r
        else if d.toNat = 96 then before ++ expandDollar matched before after r
        else if d.toNat = 39 then after ++ expandDollar matched before after r
        else '$' :: expandDollar matched before after (d :: r)
    else c :: expandDollar matched before after rest

/-- Global replacement of a non-empty literal pattern with a string
replacement, as performed by `html.replace(/pat/g, rep)`: `seen` holds
the already-scanned part of the subject in reverse, so that each match
can expand `` $` `` and `$'` against the original string. -/
def replaceAllFuel (pat rep : List Char) : Nat → List Char → List Char → List Char
  | _, _, [] => []
  | 0, _, l => l
  | fuel + 1, seen, x :: xs =>
    if pat ≠ [] ∧ pat.isPrefixOf (x :: xs) then
      expandDollar pat seen.reverse (xs.drop (pat.length - 1)) rep ++
        replaceAllFuel pat rep fuel (pat.reverse ++ seen) (xs.drop (pat.length - 1))
    else x :: replaceAllFuel pat rep fuel (x :: seen) xs

/-- Character-level `s.replace(/pat/g, rep)`. -/
def replaceAllChars (pat rep l : List Char) : List Char :=
  replaceAllFuel pat rep l.length [] l

/-- String-level global replacement. -/
def replaceAllStr (s pat rep : String) : String :=
  String.mk (replaceAllChars pat.data rep.data s.data)

/-- Embedding of `rewriteRootPaths(html, rootUri)`. -/
def rewriteRootPaths (html rootUri : String) : String :=
  replaceAllStr
    (replaceAllStr
      (replaceAllStr html "href=\"/" ("href=\"" ++ rootUri ++ "/"))
      "src=\"/" ("src=\"" ++ rootUri ++ "/"))
    "action=\"/" ("action=\"" ++ rootUri ++ "/")

/-! ## `isNewer`

Embedding of `isNewer(remote, local)`: the version strings are split on
`"."`, each component goes through `Number(…)`, and three rounds of
`>` / `<` decide.  `Number` is modelled after ECMA-262
`StringNumericLiteral` (whitespace trimming, `""` ↦ 0, hex / octal /
binary integer literals, optionally signed decimal literals with
fraction and exponent, `Infinity`, anything else `NaN`), with the
mathematical value rounded to the nearest IEEE-754 binary64 value
(round half to even, overflow to ±∞).  A finite double is represented
exactly and canonically as `(-1)^neg * m * 2^exp` with `m < 2^53` (`m ∈
[2^52, 2^53)` for normal values, `exp = -1074` for subnormal ones, `m =
0 ∧ exp = 0 ∧ neg = false` for zero).  The distinction between `+0` and
`-0` is dropped: the program only ever applies `>` and `<`, which
identify the two zeros. -/

/-- A JavaScript number as `isNewer` uses it: `NaN`, `±Infinity`, or a
finite binary64 value `(-1)^neg * m * 2^exp`. -/
inductive JsNum where
  | nan
  | posInf
  | negInf
  | finite (neg : Bool) (m : Nat) (exp : Int)
deriving DecidableEq

/-- Decimal digit-string valuation. -/
def digitsToNat (l : List Char) : Nat :=
  l.foldl (fun acc c => acc * 10 + (c.toNat - 48)) 0

/-- `⌊log₂ n⌋` (0 for `n ≤ 1`), with structural fuel — the fuel `n`
covers every halving chain from `n`. -/
def natLog2Fuel : Nat → Nat → Nat
  | 0, _ => 0
  | fuel + 1, n => if n ≤ 1 then 0 else natLog2Fuel fuel (n / 2) + 1

/-- `⌊log₂ n⌋`, 0 for `n ≤ 1`. -/
def natLog2 (n : Nat) : Nat := natLog2Fuel n n

/-- Whether the rational `N / D` is at least `2^k` (for `N ≥ 0`,
`D ≥ 1` and a signed exponent `k`). -/
def ratGePow2 (N D : Nat) (k : Int) : Bool :=
  if 0 ≤ k then D * 2 ^ k.toNat ≤ N else D ≤ N * 2 ^ (-k).toNat

/-- `⌊log₂ (N / D)⌋` for `N, D ≥ 1`.  The estimate
`e0 = ⌊log₂ N⌋ - ⌊log₂ D⌋` satisfies `2^(e0-1) < N/D < 2^(e0+1)`, so
one comparison settles the floor. -/
def floorLog2Rat (N D : Nat) : Int :=
  let e0 : Int := (natLog2 N : Int) - (natLog2 D : Int)
  if ratGePow2 N D e0 then e0 else e0 - 1

/-- Round the rational `N / D` (`D ≥ 1`) to the nearest integer, ties
to even. -/
def roundTiesEven (N D : Nat) : Nat :=
  let t := N / D
  let r := N % D
  if 2 * r < D then t
  else if D < 2 * r then t + 1
  else if t % 2 = 0 then t else t + 1

/-- Whether `m * 2^exp ≥ 2^k` for `m ≥ 1`. -/
def pow2ge (m : Nat) (exp k : Int) : Bool :=
  if k ≤ exp then true else 2 ^ (k - exp).toNat ≤ m

/-- Round the non-negative rational `N / D` (`D ≥ 1`) to the nearest
IEEE-754 binary64 value: scale into the 53-bit window (`shift = 52 - e`
for normal values, capped at `1074` in the subnormal range), round the
scaled value half-to-even, renormalise a carry out of the window, and
overflow to `+∞` at `2^1024`. -/
def roundPos (N D : Nat) : JsNum :=
  let e := floorLog2Rat N D
  let shift : Int := min (52 - e) 1074
  let m0 :=
    if 0 ≤ shift then roundTiesEven (N * 2 ^ shift.toNat) D
    else roundTiesEven N (D * 2 ^ (-shift).toNat)
  if m0 = 0 then .finite false 0 0
  else
    let m := if 2 ^ 53 ≤ m0 then m0 / 2 else m0
    let exp : Int := if 2 ^ 53 ≤ m0 then 1 - shift else -shift
    if pow2ge m exp 1024 then .posInf else .finite false m exp

/-- Negation of a JavaScript number; `-0` is collapsed onto `+0`
(observationally identical under `>` and `<`, the only operations the
program applies). -/
def jsNegate : JsNum → JsNum
  | .nan => .nan
  | .posInf => .negInf
  | .negInf => .posInf
  | .finite n m e => if m = 0 then .finite false 0 0 else .finite (!n) m e

/-- ECMA-262 StrWhiteSpace: TAB LF VT FF CR SP NBSP ZWNBSP, the
Unicode `Zs` space separators, and the LS/PS line terminators. -/
def isJsSpace (c : Char) : Bool :=
  c.toNat = 0x9 ∨ c.toNat = 0xA ∨ c.toNat = 0xB ∨ c.toNat = 0xC ∨ c.toNat = 0xD ∨
    c.toNat = 0x20 ∨ c.toNat = 0xA0 ∨ c.toNat = 0x1680 ∨
    (0x2000 ≤ c.toNat ∧ c.toNat ≤ 0x200A) ∨ c.toNat = 0x2028 ∨ c.toNat = 0x2029 ∨
    c.toNat = 0x202F ∨ c.toNat = 0x205F ∨ c.toNat = 0x3000 ∨ c.toNat = 0xFEFF

/-- Hexadecimal digit. -/
def isHexDigitCh (c : Char) : Bool :=
  c.isDigit ∨ ('a' ≤ c ∧ c ≤ 'f') ∨ ('A' ≤ c ∧ c ≤ 'F')

/-- Value of a hexadecimal digit. -/
def hexDigitVal (c : Char) : Nat :=
  if c.isDigit then c.toNat - 48 else if 'a' ≤ c then c.toNat - 87 else c.toNat - 55

/-- Hex digit-string valuation. -/
def hexVal (l : List Char) : Nat := l.foldl (fun acc c => acc * 16 + hexDigitVal c) 0

/-- Octal digit. -/
def isOctDigitCh (c : Char) : Bool := '0' ≤ c ∧ c ≤ '7'

/-- Octal digit-string valuation. -/
def octVal (l : List Char) : Nat := l.foldl (fun acc c => acc * 8 + (c.toNat - 48)) 0

/-- Binary digit. -/
def isBinDigitCh (c : Char) : Bool := c = '0' ∨ c = '1'

/-- Binary digit-string valuation. -/
def binVal (l : List Char) : Nat := l.foldl (fun acc c => acc * 2 + (c.toNat - 48)) 0

/-- The exponent tail of a decimal literal: empty, or `e`/`E` followed
by an optionally signed non-empty digit string.  `none` means the tail
is not a well-formed ExponentPart. -/
def parseExponent : List Char → Option Int
  | [] => some 0
  | c :: rest =>
    if c = 'e' ∨ c = 'E' then
      match rest with
      | '+' :: ds =>
        if ds ≠ [] ∧ ds.all Char.isDigit then some (digitsToNat ds : Int) else none
      | '-' :: ds =>
        if ds ≠ [] ∧ ds.all Char.isDigit then some (-(digitsToNat ds : Int)) else none
      | ds => if ds ≠ [] ∧ ds.all Char.isDigit then some (digitsToNat ds : Int) else none
    else none

/-- An unsigned StrDecimalLiteral (without the `Infinity` case):
`digits [. digits] [exp]` or `. digits [exp]`, valued
`M * 10^E`; the result also carries the number of mantissa digit
characters (an upper bound on `M`'s magnitude: `M < 10^count`). -/
def parseDecimal (l : List Char) : Option (Nat × Nat × Int) :=
  let ip := l.takeWhile Char.isDigit
  let rest := l.drop ip.length
  match rest with
  | '.' :: rest2 =>
    let fp := rest2.takeWhile Char.isDigit
    let rest3 := rest2.drop fp.length
    if ip = [] ∧ fp = [] then none
    else
      match parseExponent rest3 with
      | none => none
      | some ex => some (digitsToNat (ip ++ fp), (ip ++ fp).length, ex - fp.length)
  | _ =>
    if ip = [] then none
    else
      match parseExponent rest with
      | none => none
      | some ex => some (digitsToNat ip, ip.length, ex)

/-- The double `M * 10^E` when the mantissa `M` has `digitCount` digit
characters.  Exponents far outside the binary64 range are
short-circuited to the values they round to (`M ≥ 1` and `E > 400`
forces `M·10^E ≥ 10^401 > 2^1024`, hence `+∞`; `M < 10^digitCount` and
`E + digitCount < -400` forces `M·10^E < 10^(-400) < 2^(-1075)`, hence
`0`), so the exact rational stays small enough to compute. -/
def decToDouble (M digitCount : Nat) (E : Int) : JsNum :=
  if M = 0 then .finite false 0 0
  else if 400 < E then .posInf
  else if E + digitCount < -400 then .finite false 0 0
  else if 0 ≤ E then roundPos (M * 10 ^ E.toNat) 1
  else roundPos M (10 ^ (-E).toNat)

/-- An unsigned StrDecimalLiteral: `Infinity`, or a decimal literal
rounded to a double; anything else is `NaN`. -/
def parseUnsignedDec (l : List Char) : JsNum :=
  if l = ['I', 'n', 'f', 'i', 'n', 'i', 't', 'y'] then .posInf
  else
    match parseDecimal l with
    | none => .nan
    | some (M, n, E) => decToDouble M n E

/-- An optionally signed StrDecimalLiteral. -/
def parseSignedDec (l : List Char) : JsNum :=
  match l with
  | '+' :: rest => parseUnsignedDec rest
  | '-' :: rest => jsNegate (parseUnsignedDec rest)
  | _ => parseUnsignedDec l

/-- Model of the ECMAScript `Number(string)` conversion
(StringNumericLiteral): strip StrWhiteSpace from both ends, the empty
remainder is `+0`, `0x`/`0o`/`0b` introduce unsigned non-decimal
integer literals, and otherwise an optionally signed decimal literal or
`Infinity`; any other string is `NaN`. -/
def jsNumberOfComponent (s : String) : JsNum :=
  let l := ((s.data.dropWhile isJsSpace).reverse.dropWhile isJsSpace).reverse
  match l with
  | [] => .finite false 0 0
  | '0' :: c :: rest =>
    if c = 'x' ∨ c = 'X' then
      if rest ≠ [] ∧ rest.all isHexDigitCh then roundPos (hexVal rest) 1 else .nan
    else if c = 'o' ∨ c = 'O' then
      if rest ≠ [] ∧ rest.all isOctDigitCh then roundPos (octVal rest) 1 else .nan
    else if c = 'b' ∨ c = 'B' then
      if rest ≠ [] ∧ rest.all isBinDigitCh then roundPos (binVal rest) 1 else .nan
    else parseSignedDec l
  | _ => parseSignedDec l

/-- Magnitude comparison `m1 * 2^e1 < m2 * 2^e2` on non-negative
mantissa/exponent pairs: align the exponents and compare. -/
def magLt (m1 : Nat) (e1 : Int) (m2 : Nat) (e2 : Int) : Bool :=
  if e1 ≤ e2 then m1 < m2 * 2 ^ (e2 - e1).toNat
  else m1 * 2 ^ (e1 - e2).toNat < m2

/-- JavaScript `>` on the numbers `isNewer` produces: any comparison
with `NaN` is false, infinities compare as usual, and finite values by
signed magnitude (a mantissa of 0 is a zero whatever its sign bit). -/
def jsGtNum : JsNum → JsNum → Bool
  | .nan, _ => false
  | _, .nan => false
  | .posInf, .posInf => false
  | .posInf, .negInf => true
  | .posInf, .finite _ _ _ => true
  | .negInf, _ => false
  | .finite _ _ _, .posInf => false
  | .finite _ _ _, .negInf => true
  | .finite n1 m1 e1, .finite n2 m2 e2 =>
    match n1, n2 with
    | false, false => magLt m2 e2 m1 e1
    | false, true => ¬(m1 = 0 ∧ m2 = 0)
    | true, false => false
    | true, true => magLt m1 e1 m2 e2

/-- The three-iteration comparison loop of `isNewer`, with structural
fuel (always run with fuel 3 from index 0); a missing component is the
number 0 (`r[i] ?? 0`). -/
def isNewerLoop (r l : List JsNum) : Nat → Nat → Bool
  | 0, _ => false
  | fuel + 1, i =>
    let ri := r.getD i (.finite false 0 0)
    let li := l.getD i (.finite false 0 0)
    if jsGtNum ri li then true
    else if jsGtNum li ri then false
    else isNewerLoop r l fuel (i + 1)

/-- Embedding of `isNewer(remote, local)`. -/
def isNewer (remote loc : String) : Bool :=
  let r := (splitOnChar '.' remote).map jsNumberOfComponent
  let l := (splitOnChar '.' loc).map jsNumberOfComponent
  isNewerLoop r l 3 0

/-- The first three dot-separated components of a version string, as the
JavaScript numbers `isNewer` compares (missing components read as 0). -/
def comps3 (s : String) : JsNum × JsNum × JsNum :=
  let v := (splitOnChar '.' s).map jsNumberOfComponent
  (v.getD 0 (.finite false 0 0), v.getD 1 (.finite false 0 0), v.getD 2 (.finite false 0 0))

/-! ## Platform mapping and `installHugoInternal`

Embedding of `mapPlatform`, `mapArch` and the archive-naming and
download prefix of `installHugoInternal` (lines 341–412).
`process.platform` / `process.arch` are passed as parameters. -/

/-- Embedding of `mapPlatform()`. -/
def mapPlatform (procPlatform : String) : Except String String :=
  if procPlatform = "win32" then .ok "windows"
  else if procPlatform = "darwin" then .ok "darwin"
  else if procPlatform = "linux" then .ok "linux"
  else .error ("Unsupported platform: " ++ procPlatform)

/-- Embedding of `mapArch()`. -/
def mapArch (procArch : String) : Except String String :=
  if procArch = "x64" then .ok "amd64"
  else if procArch = "arm64" then .ok "arm64"
  else .error ("Unsupported arch: " ++ procArch)

/-- The externally visible download plan of one `installHugoInternal`
run: the archive file name, the release URL, and the list of URLs
actually downloaded. -/
structure InstallPlan where
  fileName : String
  url : String
  downloads : List String
deriving DecidableEq

/-- Embedding of the archive-selection prefix of `installHugoInternal`:
platform and arch are mapped first (throwing on anything unsupported,
before any download), then the archive name and URL are assembled and
the archive is downloaded. -/
def installHugoInternal (version : String) (useExtended : Bool)
    (procPlatform procArch : String) : Except String InstallPlan :=
  match mapPlatform procPlatform with
  | .error e => .error e
  | .ok platform =>
    match mapArch procArch with
    | .error e => .error e
    | .ok arch =>
      let isWin := platform = "windows"
      let flavor := if useExtended then "hugo_extended" else "hugo"
      let base := "https://github.com/gohugoio/hugo/releases/download/v" ++ version ++ "/"
      let fileName :=
        if isWin then flavor ++ "_" ++ version ++ "_" ++ platform ++ "-" ++ arch ++ ".zip"
        else flavor ++ "_" ++ version ++ "_" ++ platform ++ "-" ++ arch ++ ".tar.gz"
      let url := base ++ fileName
      .ok { fileName := fileName, url := url, downloads := [url] }

/-! ## `ensureHugo`

Embedding of `ensureHugo(context, forceInstall)` (lines 252–300).  All
external observations are oracle fields of `EnsureEnv`; the returned
flag records whether an install was attempted. -/

/-- The ways `ensureHugo` can throw. -/
inductive EnsureErr where
  /-- `error.hugoInvalid`: configured `hugoPath` fails `hugo version`. -/
  | hugoInvalid (p : String)
  /-- `error.hugoNotFound`: nothing found and auto-download disabled. -/
  | hugoNotFound
  /-- `error.installCanceled`: the user declined the install prompt. -/
  | installCanceled
  /-- an error thrown by `installHugo` itself. -/
  | installThrew (e : String)
  /-- `error.installFailed`: install ran but the binary does not work. -/
  | installFailed
deriving DecidableEq

/-- Oracle environment for `ensureHugo` and the startup functions:
configuration values and the outcomes of the external calls. -/
structure EnsureEnv where
  /-- raw `hugoPreview.hugoPath` setting. -/
  hugoPathSetting : String
  /-- raw `hugoPreview.hugoVersion` setting. -/
  hugoVersionSetting : String
  /-- `hugoPreview.autoDownload` setting (`none` = unset, defaults true). -/
  autoDownload : Option Bool
  /-- `hugoPreview.useExtended` setting (`none` = unset, defaults true). -/
  useExtended : Option Bool
  /-- `context.globalStorageUri.fsPath`. -/
  storagePath : String
  /-- whether `process.platform` is `win32` (chooses `hugo.exe`). -/
  platformIsWin : Bool
  /-- whether `execFile(cmd, ["version"])` succeeds, per command. -/
  checkOk : String → Bool
  /-- whether the managed binary exists on disk. -/
  binExists : Bool
  /-- whether the user answers the install prompt with Install. -/
  chooseInstall : Bool
  /-- outcome of the `installHugo` call, if it is made. -/
  installOutcome : Except String Unit
  /-- whether the managed binary exists after an install. -/
  binExistsAfterInstall : Bool
  /-- whether `execFile(cmd, ["version"])` succeeds after an install. -/
  checkOkAfterInstall : String → Bool
  /-- version string reported by a binary (`getLocalHugoVersion`):
  `none` when the run fails or the output has no `v<semver>` match. -/
  localVersion : String → Option String
  /-- the tag reported by the GitHub latest-release endpoint. -/
  latestVersion : String
  /-- whether the user answers the update prompt with Update. -/
  chooseUpdate : Bool

/-- Embedding of `getHugoBinaryName()`. -/
def getHugoBinaryName (platformIsWin : Bool) : String :=
  if platformIsWin then "hugo.exe" else "hugo"

/-- The path of the extension-managed Hugo binary:
`path.join(path.join(globalStorage, "bin"), getHugoBinaryName())`. -/
def managedHugoBin (env : EnsureEnv) : String :=
  pathJoin [pathJoin [env.storagePath, "bin"], getHugoBinaryName env.platformIsWin]

/-- Embedding of `ensureHugo`.  The second component records whether an
install was attempted. -/
def ensureHugo (env : EnsureEnv) (forceInstall : Bool) : Except EnsureErr String × Bool :=
  let userPath := jsTrim env.hugoPathSetting
  let autoDownload := env.autoDownload.getD true
  if userPath ≠ "" then
    (if env.checkOk userPath then .ok userPath else .error (.hugoInvalid userPath), false)
  else if ¬ forceInstall ∧ env.checkOk "hugo" then (.ok "hugo", false)
  else
    let hugoBin := managedHugoBin env
    if ¬ forceInstall ∧ env.binExists ∧ env.checkOk hugoBin then (.ok hugoBin, false)
    else if ¬ autoDownload ∧ ¬ forceInstall then (.error .hugoNotFound, false)
    else if ¬ env.chooseInstall then (.error .installCanceled, false)
    else
      match env.installOutcome with
      | .error e => (.error (.installThrew e), true)
      | .ok _ =>
        if env.binExistsAfterInstall ∧ env.checkOkAfterInstall hugoBin then (.ok hugoBin, true)
        else (.error .installFailed, true)

/-! ## Startup: pinned version install and update check

Embedding of `resolveInstalledHugo`, `ensurePinnedHugoOnStartup`
(lines 302–329) and `checkHugoUpdateOnStartup` (lines 567–605).
`ensurePinnedHugoOnStartup` returns the list of
`installHugoInternal(version, useExtended)` calls it makes;
`checkHugoUpdateOnStartup` additionally records whether the
latest-release endpoint was queried. -/

/-- Embedding of `resolveInstalledHugo(context)`. -/
def resolveInstalledHugo (env : EnsureEnv) : Option String :=
  let userPath := jsTrim env.hugoPathSetting
  if userPath ≠ "" ∧ env.checkOk userPath then some userPath
  else if env.checkOk "hugo" then some "hugo"
  else
    let hugoBin := managedHugoBin env
    if env.binExists ∧ env.checkOk hugoBin then some hugoBin
    else none

/-- Embedding of `ensurePinnedHugoOnStartup(context)`: the list of
`(version, useExtended)` pairs passed to `installHugoInternal`. -/
def ensurePinnedHugoOnStartup (env : EnsureEnv) : List (String × Bool) :=
  let pinned := jsTrim env.hugoVersionSetting
  if pinned = "" then []
  else
    match resolveInstalledHugo env with
    | none => [(pinned, env.useExtended.getD true)]
    | some hugoPath =>
      match env.localVersion hugoPath with
      | none => [(pinned, env.useExtended.getD true)]
      | some localVer =>
        if localVer ≠ pinned then [(pinned, env.useExtended.getD true)] else []

/-- Externally visible actions of one `checkHugoUpdateOnStartup` run. -/
structure UpdateCheckResult where
  /-- whether the GitHub latest-release endpoint was queried. -/
  checkedLatest : Bool
  /-- `installHugoInternal` calls made. -/
  installs : List (String × Bool)
deriving DecidableEq

/-- Embedding of `checkHugoUpdateOnStartup(context)`. -/
def checkHugoUpdateOnStartup (env : EnsureEnv) : UpdateCheckResult :=
  let pinnedVersion := jsTrim env.hugoVersionSetting
  if pinnedVersion ≠ "" then { checkedLatest := false, installs := [] }
  else
    match resolveInstalledHugo env with
    | none => { checkedLatest := false, installs := [] }
    | some hugoPath =>
      match env.localVersion hugoPath with
      | none => { checkedLatest := false, installs := [] }
      | some localVer =>
        if ¬ isNewer env.latestVersion localVer then
          { checkedLatest := true, installs := [] }
        else if ¬ env.chooseUpdate then { checkedLatest := true, installs := [] }
        else
          { checkedLatest := true
            installs := [(env.latestVersion, env.useExtended.getD true)] }

/-! ## Hugo server child-process lifecycle

Transition system for `startHugoServer` / `stopHugoServer` and the
`exit` / `error` handlers (lines 703–851).  The state tracks the
`hugoServerProcess` module variable (`managed`), the set of spawned OS
processes that have not yet exited (`running`), the processes that have
been sent a kill signal (`killed`), and every pid ever spawned
(`spawned`, used for freshness of new pids).  Each event is one atomic
callback of the single-threaded event loop:

* `start pid` — the `hugoPreview` start action runs to completion and,
  when `hugoServerProcess` is null, spawns a fresh process `pid`;
* `stop` — `stopHugoServer`: when `hugoServerProcess` is non-null it
  nulls the variable and sends the process a kill signal (the process
  stays alive until its `exit` event is delivered);
* `exited pid` — the `exit` event of process `pid` is delivered; the
  handler attached at spawn time sets `hugoServerProcess = null`
  unconditionally;
* `errored pid` — the `error` event of process `pid`; its handler also
  sets `hugoServerProcess = null` unconditionally. -/

structure ServerState where
  managed : Option Nat
  running : List Nat
  killed : List Nat
  spawned : List Nat
deriving DecidableEq

/-- The initial state: no server has ever been started. -/
def serverInit : ServerState :=
  { managed := none, running := [], killed := [], spawned := [] }

inductive ServerEvent where
  | start (pid : Nat)
  | stop
  | exited (pid : Nat)
  | errored (pid : Nat)
deriving DecidableEq

/-- One event of the lifecycle.  Ill-formed events (`start` with a
non-fresh pid, `exited`/`errored` for a process that is not running) are
ignored. -/
def serverStep (s : ServerState) : ServerEvent → ServerState
  | .start pid =>
    match s.managed with
    | some _ => s
    | none =>
      if pid ∈ s.spawned then s
      else { s with managed := some pid, running := pid :: s.running, spawned := pid :: s.spawned }
  | .stop =>
    match s.managed with
    | none => s
    | some pid => { s with managed := none, killed := pid :: s.killed }
  | .exited pid =>
    if pid ∈ s.running then
      { s with managed := none, running := s.running.erase pid }
    else s
  | .errored pid =>
    if pid ∈ s.spawned then { s with managed := none } else s

/-- Run a trace of events from the initial state. -/
def serverRun (events : List ServerEvent) : ServerState :=
  events.foldl serverStep serverInit

/-- The live server processes: spawned, not yet exited, and not sent a
kill signal (killed processes terminate as soon as their exit event is
delivered). -/
def liveServers (s : ServerState) : List Nat :=
  s.running.filter (fun pid => pid ∉ s.killed)

/-! ## `openPreview` preconditions and the document-copy step

Embedding of the prefix of `openPreview(context)` (lines 81–128): the
four guarded preconditions, then the mirroring of the document into the
temporary content directory.  The filesystem is modelled as an
association list from absolute paths to file contents; VS Code editor
state and the `ensureHugo` outcome are parameters. -/

/-- The relevant parts of a VS Code text document. -/
structure DocModel where
  languageId : String
  fsPath : String
  text : String
deriving DecidableEq

/-- The ways the `openPreview` prefix can throw. -/
inductive PreErr where
  /-- `error.noMarkdown`: no active editor. -/
  | noMarkdown
  /-- `error.notMarkdown`: active document is not Markdown. -/
  | notMarkdown
  /-- `error.noWorkspace`: no workspace folder open. -/
  | noWorkspace
  /-- an error thrown by `ensureHugo`. -/
  | ensure (e : EnsureErr)
  /-- `error.notContent`: document outside `<workspace>/content`. -/
  | notContent
deriving DecidableEq

/-- Files on disk: an association list from paths to contents. -/
structure SimpleFS where
  files : List (String × String)
deriving DecidableEq

/-- Model of `fs.writeFileSync`: overwrite an existing entry or append a
new one. -/
def fsWrite (fs : SimpleFS) (p txt : String) : SimpleFS :=
  if fs.files.any (fun e => e.1 = p) then
    { files := fs.files.map (fun e => if e.1 = p then (p, txt) else e) }
  else { files := fs.files ++ [(p, txt)] }

/-- The file paths lying strictly under a directory. -/
def filesUnderDir (fs : SimpleFS) (dir : String) : List String :=
  (fs.files.map Prod.fst).filter (fun p => strStartsWith p (dir ++ "/"))

/-- The precondition checks of `openPreview`, in source order: active
editor, Markdown language, open workspace, `ensureHugo`, and the
`content/` containment check with `norm = path.resolve`.  On success the
document and the workspace path are returned. -/
def openPreviewCheck (editor : Option DocModel) (workspaceFolder : Option String)
    (ensureResult : Except EnsureErr String) (cwd : String) :
    Except PreErr (DocModel × String) :=
  match editor with
  | none => .error .noMarkdown
  | some doc =>
    if doc.languageId ≠ "markdown" then .error .notMarkdown
    else
      match workspaceFolder with
      | none => .error .noWorkspace
      | some workspace =>
        match ensureResult with
        | .error e => .error (.ensure e)
        | .ok _hugo =>
          let contentRoot := pathJoin [workspace, "content"]
          let normDoc := pathResolve cwd doc.fsPath
          let normRoot := pathResolve cwd contentRoot
          if ¬ (strStartsWith normDoc (normRoot ++ "/") = true) ∧ normDoc ≠ normRoot then
            .error .notContent
          else .ok (doc, workspace)

/-- The `openPreview` prefix through the document-copy step
(lines 100–128): after the checks pass, the document text is written at
its `content/`-relative path inside `<globalStorage>/run/content`.
Returns the updated filesystem and the destination path. -/
def openPreviewCopyStep (fs : SimpleFS) (editor : Option DocModel)
    (workspaceFolder : Option String) (ensureResult : Except EnsureErr String)
    (cwd storeRoot : String) : Except PreErr (SimpleFS × String) :=
  match openPreviewCheck editor workspaceFolder ensureResult cwd with
  | .error e => .error e
  | .ok (doc, workspace) =>
    let runRoot := pathJoin [storeRoot, "run"]
    let contentDir := pathJoin [runRoot, "content"]
    let contentRoot := pathJoin [workspace, "content"]
    let relPath := pathRelative cwd contentRoot doc.fsPath
    let dstMdPath := pathJoin [contentDir, relPath]
    .ok (fsWrite fs dstMdPath doc.text, dstMdPath)

/-- The temporary content directory used by `openPreview`:
`<globalStorage>/run/content`. -/
def tempContentDir (storeRoot : String) : String :=
  pathJoin [pathJoin [storeRoot, "run"], "content"]

/-! ## Clean absolute paths

A convenient well-formedness predicate on the paths fed to the
`openPreview` model: absolute, no empty or dot segments, no trailing
separator.  Real editor and storage paths satisfy it. -/

/-- A path segment that survives normalisation unchanged. -/
def cleanSeg (seg : List Char) : Bool :=
  seg ≠ [] ∧ seg ≠ ['.'] ∧ seg ≠ ['.', '.']

/-- Clean absolute path: `/seg/…/seg` with every segment clean. -/
def cleanAbs (s : String) : Bool :=
  s.data.head? = some '/' ∧ s.data.tail ≠ [] ∧ (splitCharsOn '/' s.data.tail).all cleanSeg

/-- Comparison of two version triples in the order `isNewer` uses. -/
def isNewerOnComps : JsNum × JsNum × JsNum → JsNum × JsNum × JsNum → Bool
  | (r0, r1, r2), (l0, l1, l2) =>
    if jsGtNum r0 l0 then true
    else if jsGtNum l0 r0 then false
    else if jsGtNum r1 l1 then true
    else if jsGtNum l1 r1 then false
    else if jsGtNum r2 l2 then true
    else if jsGtNum l2 r2 then false
    else false

/-- Whether `pat` occurs as a contiguous substring: somewhere the scan
of `String.prototype.replace` would find a match. -/
def hasOccur (pat : List Char) : List Char → Bool
  | [] => pat.isPrefixOf []
  | x :: xs => pat.isPrefixOf (x :: xs) || hasOccur pat xs

/-! ## Generic lemmas about the string utilities -/

theorem splitCharsOn_ne_nil (c : Char) (l : List Char) : splitCharsOn c l ≠ [] := by
  cases l with
  | nil => simp [splitCharsOn]
  | cons x xs =>
    unfold splitCharsOn
    by_cases h : x = c
    · simp [h]
    · simp only [h, if_false]
      cases splitCharsOn c xs <;> simp

theorem splitCharsOn_append (c : Char) (xs ys : List Char) :
    splitCharsOn c (xs ++ c :: ys) = splitCharsOn c xs ++ splitCharsOn c ys := by
  induction xs with
  | nil => simp [splitCharsOn]
  | cons x xs ih =>
    by_cases h : x = c
    · subst h
      simp [splitCharsOn, ih]
    · simp only [List.cons_append, splitCharsOn, h, if_false, List.append_eq, ih]
      rcases hs : splitCharsOn c xs with _ | ⟨h1, t1⟩
      · exact absurd hs (splitCharsOn_ne_nil c xs)
      · simp

theorem splitCharsOn_no_sep (c : Char) (xs : List Char) (h : c ∉ xs) :
    splitCharsOn c xs = [xs] := by
  induction xs with
  | nil => rfl
  | cons x xs ih =>
    simp only [List.mem_cons, not_or] at h
    simp only [splitCharsOn, Ne.symm h.1, if_false, ih h.2]

theorem joinSegs_splitCharsOn (c : Char) (l : List Char) :
    joinSegs c (splitCharsOn c l) = l := by
  induction l with
  | nil => rfl
  | cons x xs ih =>
    unfold splitCharsOn
    by_cases h : x = c
    · subst h
      simp only [if_pos rfl]
      rcases hs : splitCharsOn x xs with _ | ⟨h1, t1⟩
      · exact absurd hs (splitCharsOn_ne_nil x xs)
      · rw [hs] at ih; simpa [joinSegs] using ih
    · simp only [h, if_false]
      rcases hs : splitCharsOn c xs with _ | ⟨h1, t1⟩
      · exact absurd hs (splitCharsOn_ne_nil c xs)
      · rw [hs] at ih
        cases t1 <;> simpa [joinSegs] using ih

/-! ## C5: archive naming in `installHugoInternal` -/

/-- C5.  For every install of version `v`, the archive file name is
`hugo[_extended]_v_platform-arch` with `.zip` on windows and `.tar.gz`
on darwin/linux, where platform/arch come from the stated
`process.platform` / `process.arch` mappings, and any other platform or
arch value makes the install throw before downloading anything. -/
theorem C5_archive_naming (version : String) (useExtended : Bool) :
    (mapPlatform "win32" = .ok "windows" ∧ mapPlatform "darwin" = .ok "darwin" ∧
      mapPlatform "linux" = .ok "linux") ∧
    (mapArch "x64" = .ok "amd64" ∧ mapArch "arm64" = .ok "arm64") ∧
    (∀ p a pl ar, mapPlatform p = .ok pl → mapArch a = .ok ar →
      ∃ plan, installHugoInternal version useExtended p a = .ok plan ∧
        plan.fileName =
          (if useExtended then "hugo_extended" else "hugo") ++ "_" ++ version ++ "_" ++
            pl ++ "-" ++ ar ++ (if pl = "windows" then ".zip" else ".tar.gz") ∧
        plan.downloads = [plan.url]) ∧
    (∀ p a, p ≠ "win32" → p ≠ "darwin" → p ≠ "linux" →
      installHugoInternal version useExtended p a = .error ("Unsupported platform: " ++ p)) ∧
    (∀ p a pl, mapPlatform p = .ok pl → a ≠ "x64" → a ≠ "arm64" →
      installHugoInternal version useExtended p a = .error ("Unsupported arch: " ++ a)) := by
  refine ⟨⟨rfl, rfl, rfl⟩, ⟨rfl, rfl⟩, ?_, ?_, ?_⟩
  · intro p a pl ar hp ha
    simp only [installHugoInternal, hp, ha]
    refine ⟨_, rfl, ?_, rfl⟩
    by_cases hw : pl = "windows" <;> simp [hw]
  · intro p a h1 h2 h3
    simp only [installHugoInternal, mapPlatform, h1, h2, h3, if_false]
  · intro p a pl hp h1 h2
    simp only [installHugoInternal, hp, mapArch, h1, h2, if_false]

/-! ## C8: `ensureHugo` with a configured `hugoPath` -/

/-- C8.  Whenever the trimmed `hugoPreview.hugoPath` setting is
non-empty, `ensureHugo` (for both values of `forceInstall`) returns
exactly that path when `hugo version` succeeds on it and throws the
invalid-hugoPath error otherwise; it never falls back and never
installs. -/
theorem C8_hugoPath_short_circuit (env : EnsureEnv) (forceInstall : Bool)
    (h : jsTrim env.hugoPathSetting ≠ "") :
    ensureHugo env forceInstall =
      ((if env.checkOk (jsTrim env.hugoPathSetting) then
          .ok (jsTrim env.hugoPathSetting)
        else .error (.hugoInvalid (jsTrim env.hugoPathSetting))), false) := by
  simp [ensureHugo, h]

theorem C8_hugoPath_short_circuit_witness :
    ∃ env : EnsureEnv, jsTrim env.hugoPathSetting ≠ "" ∧
      (ensureHugo env true = (.ok "/opt/hugo", false) ∧
        ensureHugo env false = (.ok "/opt/hugo", false)) := by
  refine ⟨{ hugoPathSetting := " /opt/hugo ", hugoVersionSetting := "",
            autoDownload := none, useExtended := none, storagePath := "/gs",
            platformIsWin := false, checkOk := fun _ => true, binExists := false,
            chooseInstall := false, installOutcome := .ok (), binExistsAfterInstall := false,
            checkOkAfterInstall := fun _ => false, localVersion := fun _ => none,
            latestVersion := "", chooseUpdate := false }, ?_, ?_, ?_⟩
  · decide
  · rw [C8_hugoPath_short_circuit _ _ (by decide)]; rfl
  · rw [C8_hugoPath_short_circuit _ _ (by decide)]; rfl

theorem C5_archive_naming_witness :
    (∃ plan, installHugoInternal "0.152.2" true "linux" "x64" = .ok plan ∧
      plan.fileName = "hugo_extended_0.152.2_linux-amd64.tar.gz" ∧
      plan.downloads = [plan.url]) ∧
    installHugoInternal "0.152.2" true "sunos" "x64" =
      .error "Unsupported platform: sunos" ∧
    installHugoInternal "0.152.2" true "linux" "mips" =
      .error "Unsupported arch: mips" := by
  refine ⟨?_, ?_, ?_⟩
  · obtain ⟨plan, h1, h2, h3⟩ :=
      (C5_archive_naming "0.152.2" true).2.2.1 "linux" "x64" "linux" "amd64" rfl rfl
    refine ⟨plan, h1, ?_, h3⟩
    rw [h2]; decide
  · exact (C5_archive_naming "0.152.2" true).2.2.2.1 "sunos" "x64"
      (by decide) (by decide) (by decide)
  · exact (C5_archive_naming "0.152.2" true).2.2.2.2 "linux" "mips" "linux" rfl
      (by decide) (by decide)

/-! ## C3: pinned Hugo version on startup -/

/-- C3.  With a non-empty (after trimming) `hugoPreview.hugoVersion`
setting, `ensurePinnedHugoOnStartup` installs exactly the pinned version
whenever no binary resolves or the resolved binary's reported version
differs from the pin, installs nothing when the version matches the pin,
and `checkHugoUpdateOnStartup` performs no update check at all. -/
theorem C3_pinned_version_startup (env : EnsureEnv)
    (hpin : jsTrim env.hugoVersionSetting ≠ "") :
    (resolveInstalledHugo env = none →
      ensurePinnedHugoOnStartup env =
        [(jsTrim env.hugoVersionSetting, env.useExtended.getD true)]) ∧
    (∀ p, resolveInstalledHugo env = some p →
      env.localVersion p ≠ some (jsTrim env.hugoVersionSetting) →
      ensurePinnedHugoOnStartup env =
        [(jsTrim env.hugoVersionSetting, env.useExtended.getD true)]) ∧
    (∀ p, resolveInstalledHugo env = some p →
      env.localVersion p = some (jsTrim env.hugoVersionSetting) →
      ensurePinnedHugoOnStartup env = []) ∧
    checkHugoUpdateOnStartup env = { checkedLatest := false, installs := [] } := by
  refine ⟨?_, ?_, ?_, ?_⟩
  · intro hres
    simp [ensurePinnedHugoOnStartup, hpin, hres]
  · intro p hres hver
    cases hlv : env.localVersion p with
    | none => simp [ensurePinnedHugoOnStartup, hpin, hres, hlv]
    | some v =>
      rw [hlv] at hver
      have hne : v ≠ jsTrim env.hugoVersionSetting := by
        intro hv; exact hver (by rw [hv])
      simp [ensurePinnedHugoOnStartup, hpin, hres, hlv, hne]
  · intro p hres hver
    simp [ensurePinnedHugoOnStartup, hpin, hres, hver]
  · simp [checkHugoUpdateOnStartup, hpin]

theorem C3_pinned_version_startup_witness :
    ∃ env : EnsureEnv, jsTrim env.hugoVersionSetting ≠ "" ∧
      resolveInstalledHugo env = none ∧
      ensurePinnedHugoOnStartup env = [("0.152.2", true)] ∧
      checkHugoUpdateOnStartup env = { checkedLatest := false, installs := [] } := by
  refine ⟨{ hugoPathSetting := "", hugoVersionSetting := "0.152.2",
            autoDownload := none, useExtended := none, storagePath := "/gs",
            platformIsWin := false, checkOk := fun _ => false, binExists := false,
            chooseInstall := false, installOutcome := .ok (), binExistsAfterInstall := false,
            checkOkAfterInstall := fun _ => false, localVersion := fun _ => none,
            latestVersion := "", chooseUpdate := false }, by decide, by decide, ?_, ?_⟩
  · exact (C3_pinned_version_startup _ (by decide)).1 (by decide)
  · exact (C3_pinned_version_startup _ (by decide)).2.2.2

/-! ## C4: the server-process lifecycle.

The claim asserts that no reachable state holds two live server
processes.  The trace below refutes it on the model of the code: after
`start 1; stop`, process 1 keeps running until its `exit` event while
`hugoServerProcess` is already null, so `start 2` spawns a second
process.  When the `exit` event of process 1 is finally delivered, the
spawn-time handler sets `hugoServerProcess = null` unconditionally —
although the variable now refers to process 2 — so `start 3` spawns a
third process.  Processes 2 and 3 are then both live (spawned, not
exited, never killed), and process 2 is unmanaged and can no longer be
stopped. -/

/-- C4.  Concrete event trace after which two live, never-killed Hugo
server processes exist simultaneously, contradicting the claimed
invariant. -/
theorem C4_two_live_servers_trace :
    liveServers (serverRun [.start 1, .stop, .start 2, .exited 1, .start 3]) = [3, 2] ∧
    (serverRun [.start 1, .stop, .start 2, .exited 1, .start 3]).managed = some 3 ∧
    (serverRun [.start 1, .stop, .start 2, .exited 1, .start 3]).killed = [1] := by
  decide

/-! ## C9: `isNewer` is a strict comparison -/

theorem magLt_self (m : Nat) (e : Int) : magLt m e m e = false := by
  unfold magLt
  rw [if_pos (le_refl e)]
  simp

theorem magLt_asymm {m1 m2 : Nat} {e1 e2 : Int} (h : magLt m1 e1 m2 e2 = true) :
    magLt m2 e2 m1 e1 = false := by
  unfold magLt at h ⊢
  rcases lt_trichotomy e1 e2 with h1 | h1 | h1
  · rw [if_pos (le_of_lt h1)] at h
    rw [if_neg (not_le.mpr h1)]
    simp only [decide_eq_true_eq] at h
    simp only [decide_eq_false_iff_not, not_lt]
    omega
  · subst h1
    rw [if_pos (le_refl e1)] at h ⊢
    simp at h ⊢
    omega
  · rw [if_neg (not_le.mpr h1)] at h
    rw [if_pos (le_of_lt h1)]
    simp only [decide_eq_true_eq] at h
    simp only [decide_eq_false_iff_not, not_lt]
    omega

theorem jsGtNum_self (x : JsNum) : jsGtNum x x = false := by
  cases x with
  | nan => rfl
  | posInf => rfl
  | negInf => rfl
  | finite n m e => cases n <;> simp [jsGtNum, magLt_self]

theorem jsGtNum_asymm {x y : JsNum} (h : jsGtNum x y = true) : jsGtNum y x = false := by
  cases x <;> cases y <;>
    first
      | rfl
      | exact absurd h Bool.false_ne_true
      | skip
  case finite.finite n1 m1 e1 n2 m2 e2 =>
    cases n1 <;> cases n2
    · exact magLt_asymm h
    · rfl
    · exact absurd h Bool.false_ne_true
    · exact magLt_asymm h

theorem isNewerLoop_self (r : List JsNum) (fuel i : Nat) : isNewerLoop r r fuel i = false := by
  induction fuel generalizing i with
  | zero => rfl
  | succ n ih => simp [isNewerLoop, jsGtNum_self, ih]

theorem isNewerLoop_succ (r l : List JsNum) (n i : Nat) :
    isNewerLoop r l (n + 1) i =
      (if jsGtNum (r.getD i (.finite false 0 0)) (l.getD i (.finite false 0 0)) then true
       else if jsGtNum (l.getD i (.finite false 0 0)) (r.getD i (.finite false 0 0)) then false
       else isNewerLoop r l n (i + 1)) := rfl

theorem isNewerLoop_asymm (r l : List JsNum) (fuel i : Nat)
    (h : isNewerLoop r l fuel i = true) : isNewerLoop l r fuel i = false := by
  induction fuel generalizing i with
  | zero => exact absurd h (by simp [isNewerLoop])
  | succ n ih =>
    rw [isNewerLoop_succ] at h
    rw [isNewerLoop_succ]
    by_cases h1 : jsGtNum (r.getD i (.finite false 0 0)) (l.getD i (.finite false 0 0)) = true
    · have hasym : ¬ (jsGtNum (l.getD i (.finite false 0 0)) (r.getD i (.finite false 0 0)) = true) := by
        rw [jsGtNum_asymm h1]; exact Bool.false_ne_true
      rw [if_neg hasym, if_pos h1]
    · rw [if_neg h1] at h
      by_cases h2 : jsGtNum (l.getD i (.finite false 0 0)) (r.getD i (.finite false 0 0)) = true
      · rw [if_pos h2] at h; cases h
      · rw [if_neg h2] at h
        rw [if_neg h2, if_neg h1]
        exact ih _ h

theorem isNewer_eq_onComps (a b : String) :
    isNewer a b = isNewerOnComps (comps3 a) (comps3 b) := by
  simp [isNewer, comps3, isNewerOnComps, isNewerLoop]

/-- C9.  `isNewer` is irreflexive and asymmetric, and its result
depends only on the first three dot-separated components of its
arguments, taken as the JavaScript numbers it compares (missing
components read as the number 0, and a `NaN` component compares
neither greater nor smaller). -/
theorem C9_isNewer_strict :
    (∀ v, isNewer v v = false) ∧
    (∀ a b, ¬(isNewer a b = true ∧ isNewer b a = true)) ∧
    (∀ a b a2 b2, comps3 a = comps3 a2 → comps3 b = comps3 b2 →
      isNewer a b = isNewer a2 b2) := by
  refine ⟨fun v => isNewerLoop_self _ 3 0, ?_, ?_⟩
  · intro a b
    simp only [isNewer]
    rintro ⟨h1, h2⟩
    rw [isNewerLoop_asymm _ _ 3 0 h1] at h2
    cases h2
  · intro a b a2 b2 ha hb
    rw [isNewer_eq_onComps, isNewer_eq_onComps, ha, hb]

set_option maxRecDepth 8000 in
theorem C9_isNewer_strict_witness :
    isNewer "0.152.2" "0.152.2" = false ∧
    isNewer "1.2.3.9" "1.2.3" = isNewer "1.2.3.8" "1.2.3" ∧
    ¬(isNewer "0.153.0" "0.152.2" = true ∧ isNewer "0.152.2" "0.153.0" = true) :=
  ⟨C9_isNewer_strict.1 "0.152.2",
    C9_isNewer_strict.2.2 "1.2.3.9" "1.2.3" "1.2.3.8" "1.2.3" (by decide) (by decide),
    C9_isNewer_strict.2.1 "0.153.0" "0.152.2"⟩

/-! ## C6: `openPreview` precondition checks -/

/-- C6.  `openPreview` throws — before the build and before any preview
panel is touched (the model's copy/build step propagates the error
unchanged, performing no filesystem write) — whenever one of its
preconditions fails, checked in source order: active editor, Markdown
language, open workspace, and containment of the document's resolved
path in `<workspace>/content` (equality, or strictly below followed by
the path separator). -/
theorem C6_openPreview_preconditions (editor : Option DocModel) (ws : Option String)
    (ens : Except EnsureErr String) (cwd : String) :
    (editor = none → openPreviewCheck editor ws ens cwd = .error .noMarkdown) ∧
    (∀ doc, editor = some doc → doc.languageId ≠ "markdown" →
      openPreviewCheck editor ws ens cwd = .error .notMarkdown) ∧
    (∀ doc, editor = some doc → doc.languageId = "markdown" → ws = none →
      openPreviewCheck editor ws ens cwd = .error .noWorkspace) ∧
    (∀ doc w hugo, editor = some doc → doc.languageId = "markdown" → ws = some w →
      ens = .ok hugo →
      strStartsWith (pathResolve cwd doc.fsPath)
        (pathResolve cwd (pathJoin [w, "content"]) ++ "/") = false →
      pathResolve cwd doc.fsPath ≠ pathResolve cwd (pathJoin [w, "content"]) →
      openPreviewCheck editor ws ens cwd = .error .notContent) ∧
    (∀ doc w hugo, editor = some doc → doc.languageId = "markdown" → ws = some w →
      ens = .ok hugo →
      (strStartsWith (pathResolve cwd doc.fsPath)
          (pathResolve cwd (pathJoin [w, "content"]) ++ "/") = true ∨
        pathResolve cwd doc.fsPath = pathResolve cwd (pathJoin [w, "content"])) →
      openPreviewCheck editor ws ens cwd = .ok (doc, w)) ∧
    (∀ fs storeRoot e, openPreviewCheck editor ws ens cwd = .error e →
      openPreviewCopyStep fs editor ws ens cwd storeRoot = .error e) := by
  refine ⟨?_, ?_, ?_, ?_, ?_, ?_⟩
  · intro he; subst he; rfl
  · intro doc he hlang; subst he
    simp [openPreviewCheck, hlang]
  · intro doc he hlang hw; subst he; subst hw
    simp [openPreviewCheck, hlang]
  · intro doc w hugo he hlang hw hens hpre hne
    subst he; subst hw; subst hens
    simp only [openPreviewCheck, hlang]
    rw [if_neg (by simp), if_pos ⟨by simp [hpre], hne⟩]
  · intro doc w hugo he hlang hw hens hor
    subst he; subst hw; subst hens
    have hcond : ¬ (¬ strStartsWith (pathResolve cwd doc.fsPath)
        (pathResolve cwd (pathJoin [w, "content"]) ++ "/") = true ∧
        pathResolve cwd doc.fsPath ≠ pathResolve cwd (pathJoin [w, "content"])) := by
      rintro ⟨hnot, hne⟩
      rcases hor with hpre | heq
      · exact hnot hpre
      · exact hne heq
    simp only [openPreviewCheck, hlang]
    rw [if_neg (by simp), if_neg hcond]
  · intro fs storeRoot e herr
    simp [openPreviewCopyStep, herr]

theorem C6_openPreview_preconditions_witness :
    openPreviewCheck none (some "/ws") (.ok "hugo") "/" = .error .noMarkdown ∧
    openPreviewCheck (some ⟨"plaintext", "/ws/content/a.md", "t"⟩) (some "/ws")
      (.ok "hugo") "/" = .error .notMarkdown ∧
    openPreviewCheck (some ⟨"markdown", "/ws/content/a.md", "t"⟩) none
      (.ok "hugo") "/" = .error .noWorkspace ∧
    openPreviewCheck (some ⟨"markdown", "/elsewhere/a.md", "t"⟩) (some "/ws")
      (.ok "hugo") "/" = .error .notContent ∧
    openPreviewCheck (some ⟨"markdown", "/ws/content/a.md", "t"⟩) (some "/ws")
      (.ok "hugo") "/" = .ok (⟨"markdown", "/ws/content/a.md", "t"⟩, "/ws") := by
  refine ⟨?_, ?_, ?_, ?_, ?_⟩
  · exact (C6_openPreview_preconditions none (some "/ws") (.ok "hugo") "/").1 rfl
  · exact (C6_openPreview_preconditions _ _ _ _).2.1 _ rfl (by decide)
  · exact (C6_openPreview_preconditions _ _ _ _).2.2.1 _ rfl rfl rfl
  · exact (C6_openPreview_preconditions _ _ _ _).2.2.2.1 _ _ "hugo" rfl rfl rfl rfl
      (by decide) (by decide)
  · exact (C6_openPreview_preconditions _ _ _ _).2.2.2.2.1 _ _ "hugo" rfl rfl rfl rfl
      (Or.inl (by decide))

/-! ## C1: `resolveHtmlPathByHugoList` -/

theorem scanRows_eq_find (ip iq : Nat) (target outDir : String) (rows : List String) :
    scanRows ip iq target outDir rows =
      match rows.find? (rowStops ip target) with
      | none => .error .htmlNotGenerated
      | some line => rowOutcome ip iq outDir line := by
  induction rows with
  | nil => rfl
  | cons line rest ih =>
    rw [List.find?_cons]
    cases hc : (splitOnChar ',' line).get? ip with
    | none =>
      have hstop : rowStops ip target line = true := by
        unfold rowStops; rw [hc]
      rw [hstop]
      simp only [scanRows, rowOutcome, hc]
    | some pcol =>
      by_cases ht : normalizeSlashes pcol = target
      · have hstop : rowStops ip target line = true := by
          unfold rowStops; rw [hc]; simpa using ht
        rw [hstop]
        simp only [scanRows, rowOutcome, hc]
        simp [ht]
      · have hstop : rowStops ip target line = false := by
          unfold rowStops; rw [hc]; simpa using ht
        rw [hstop]
        simp only [scanRows, hc]
        rw [if_pos ht]
        exact ih

/-- C1 (amended).  `resolveHtmlPathByHugoList` coincides everywhere
with the reference description `resolveHtmlPathSpec`: fewer than two
lines or a missing header column throw the corresponding errors, and
otherwise the outcome is decided by the first data row whose normalised
`path` column equals `content/<contentRelPath>` or that lacks a `path`
column — a short row throws an uncaught `TypeError`, a matching row
with an empty permalink throws the missing-permalink error, an
unparseable permalink throws from `new URL`, and otherwise the returned
path is the join of `outDir`, the permalink's URL pathname with leading
slashes stripped, and `index.html`; with no such row the not-generated
error is thrown. -/
theorem C1_resolveHtmlPath_characterisation (stdout outDir contentRelPath : String) :
    resolveHtmlPathByHugoList stdout outDir contentRelPath =
      resolveHtmlPathSpec stdout outDir contentRelPath := by
  unfold resolveHtmlPathByHugoList resolveHtmlPathSpec
  by_cases hlen : (splitOnChar '\n' (jsTrim stdout)).length < 2
  · simp [hlen]
  · simp only [hlen, if_false]
    cases idxOf? "path" (splitOnChar ',' ((splitOnChar '\n' (jsTrim stdout)).headD "")) with
    | none => rfl
    | some ip =>
      cases idxOf? "permalink" (splitOnChar ',' ((splitOnChar '\n' (jsTrim stdout)).headD "")) with
      | none => rfl
      | some iq => exact scanRows_eq_find ip iq _ outDir _

/-- C1 counterexample to the claim as stated.  The header row has the
`path` column second, the first data row `"x"` is one column wide, and
the second data row matches the target with a well-formed permalink.
The claim says the call returns the join of `outDir`, the stripped URL
pathname `a/`, and `index.html`; the code instead dies with an uncaught
`TypeError` while reading the `path` column of the first data row. -/
theorem C1_counterexample :
    resolveHtmlPathByHugoList "permalink,path\nx\nhttp://e/a/,content/a.md" "out" "a.md"
      = .error .typeError ∧
    resolveHtmlPathByHugoList "permalink,path\nx\nhttp://e/a/,content/a.md" "out" "a.md"
      ≠ .ok (pathJoin ["out", pathJoin ["a/", "index.html"]]) := by
  refine ⟨rfl, ?_⟩
  intro h
  exact Except.noConfusion h

/-! ## Lemmas about segment resolution (the POSIX path model) -/

/-- One step of the resolution loop, unfolded. -/
theorem resolveSegs_cons (a : Bool) (acc : List (List Char)) (x : List Char)
    (rest : List (List Char)) :
    resolveSegs a acc (x :: rest) = resolveSegs a (resolveStep a acc x) rest := rfl

/-- A one-element segment list performs exactly one step. -/
theorem resolveSegs_one (a : Bool) (acc : List (List Char)) (x : List Char) :
    resolveSegs a acc [x] = resolveStep a acc x := rfl

theorem resolveStep_skip (a : Bool) (acc : List (List Char)) (x : List Char)
    (h : x = [] ∨ x = ['.']) : resolveStep a acc x = acc := by
  unfold resolveStep; rw [if_pos h]

theorem resolveStep_push (a : Bool) (acc : List (List Char)) (x : List Char)
    (h1 : ¬(x = [] ∨ x = ['.'])) (h2 : x ≠ ['.', '.']) :
    resolveStep a acc x = x :: acc := by
  unfold resolveStep; rw [if_neg h1, if_neg h2]

theorem resolveStep_pop (a : Bool) (top : List Char) (tl : List (List Char))
    (h3 : top ≠ ['.', '.']) : resolveStep a (top :: tl) ['.', '.'] = tl := by
  simp [resolveStep, h3]

theorem resolveStep_dotdot_nil (a : Bool) :
    resolveStep a [] ['.', '.'] = if a then [['.', '.']] else [] := by
  simp [resolveStep]

theorem resolveStep_dotdot_dotdot (a : Bool) (tl : List (List Char)) :
    resolveStep a (['.', '.'] :: tl) ['.', '.'] =
      if a then ['.', '.'] :: ['.', '.'] :: tl else ['.', '.'] :: tl := by
  simp [resolveStep]

theorem resolveSegs_append (a : Bool) (acc xs ys : List (List Char)) :
    resolveSegs a acc (xs ++ ys) = resolveSegs a (resolveSegs a acc xs) ys := by
  induction xs generalizing acc with
  | nil => rfl
  | cons x xs ih =>
    rw [List.cons_append, resolveSegs_cons, resolveSegs_cons]
    exact ih _

theorem resolveStep_pred (P : List Char → Prop) (hdd : P ['.', '.'])
    (a : Bool) (acc : List (List Char)) (x : List Char)
    (hacc : ∀ s ∈ acc, P s)
    (hx : x ≠ [] → x ≠ ['.'] → x ≠ ['.', '.'] → P x) :
    ∀ s ∈ resolveStep a acc x, P s := by
  by_cases h1 : x = [] ∨ x = ['.']
  · rw [resolveStep_skip _ _ _ h1]; exact hacc
  · by_cases h2 : x = ['.', '.']
    · subst h2
      cases acc with
      | nil =>
        rw [resolveStep_dotdot_nil]
        intro s hs
        cases a
        · simp at hs
        · simp at hs; exact hs ▸ hdd
      | cons top tl =>
        by_cases h3 : top = ['.', '.']
        · subst h3
          rw [resolveStep_dotdot_dotdot]
          intro s hs
          have hmem : s = ['.', '.'] ∨ s ∈ (['.', '.'] :: tl) := by
            cases a
            · simp only [Bool.false_eq_true, if_false] at hs
              exact Or.inr hs
            · simp only [if_true] at hs
              exact List.mem_cons.mp hs
          rcases hmem with rfl | hs2
          · exact hdd
          · exact hacc s hs2
        · rw [resolveStep_pop _ _ _ h3]
          exact fun s hs => hacc s (List.mem_cons_of_mem _ hs)
    · rw [resolveStep_push _ _ _ h1 h2]
      intro s hs
      rcases List.mem_cons.mp hs with rfl | hs
      · push_neg at h1
        exact hx h1.1 h1.2 h2
      · exact hacc s hs

theorem resolveSegs_pred (P : List Char → Prop) (hdd : P ['.', '.'])
    (a : Bool) (l : List (List Char)) :
    ∀ acc, (∀ s ∈ acc, P s) →
      (∀ s ∈ l, s ≠ [] → s ≠ ['.'] → s ≠ ['.', '.'] → P s) →
      ∀ s ∈ resolveSegs a acc l, P s := by
  induction l with
  | nil => intro acc hacc _; exact hacc
  | cons x xs ih =>
    intro acc hacc hl
    rw [resolveSegs_cons]
    exact ih _ (resolveStep_pred P hdd a acc x hacc (hl x (List.mem_cons_self _ _)))
      (fun s hs => hl s (List.mem_cons_of_mem _ hs))

theorem resolveSegs_wf (a : Bool) (acc l : List (List Char))
    (hacc : ∀ s ∈ acc, s ≠ [] ∧ s ≠ ['.']) :
    ∀ s ∈ resolveSegs a acc l, s ≠ [] ∧ s ≠ ['.'] :=
  resolveSegs_pred _ (by simp) a l acc hacc (fun s _ h1 h2 _ => ⟨h1, h2⟩)

theorem resolveSegs_noslash (a : Bool) (acc l : List (List Char))
    (hacc : ∀ s ∈ acc, '/' ∉ s) (hl : ∀ s ∈ l, '/' ∉ s) :
    ∀ s ∈ resolveSegs a acc l, '/' ∉ s :=
  resolveSegs_pred _ (by simp) a l acc hacc (fun s hs _ _ _ => hl s hs)

theorem resolveSegs_reprocess (a : Bool) (ys : List (List Char)) :
    ∀ acc, resolveSegs a acc ((resolveSegs true [] ys).reverse) = resolveSegs a acc ys := by
  induction ys using List.reverseRecOn with
  | nil => intro acc; rfl
  | append_singleton ys y ih =>
    intro acc
    have hwf : ∀ s ∈ resolveSegs true [] ys, s ≠ [] ∧ s ≠ ['.'] :=
      resolveSegs_wf true [] ys (by simp)
    rw [resolveSegs_append true [] ys [y], resolveSegs_append a acc ys [y], ← ih acc,
      resolveSegs_one, resolveSegs_one]
    by_cases h1 : y = [] ∨ y = ['.']
    · rw [resolveStep_skip _ _ _ h1, resolveStep_skip _ _ _ h1]
    · by_cases h2 : y = ['.', '.']
      · subst h2
        cases hS : resolveSegs true [] ys with
        | nil =>
          rw [resolveStep_dotdot_nil, if_pos rfl]
          rfl
        | cons top tl =>
          rw [hS] at hwf
          by_cases h3 : top = ['.', '.']
          · subst h3
            rw [resolveStep_dotdot_dotdot, if_pos rfl, List.reverse_cons,
              List.reverse_cons, resolveSegs_append, resolveSegs_one]
          · have htwf : top ≠ [] ∧ top ≠ ['.'] := hwf top (List.mem_cons_self _ _)
            rw [resolveStep_pop _ _ _ h3, List.reverse_cons, resolveSegs_append,
              resolveSegs_one, resolveStep_push _ _ _ (by push_neg; exact htwf) h3,
              resolveStep_pop _ _ _ h3]
      · rw [resolveStep_push _ _ _ h1 h2, List.reverse_cons, resolveSegs_append,
          resolveSegs_one]

theorem resolveSegs_filter (a : Bool) (l : List (List Char)) :
    ∀ acc, resolveSegs a acc l = resolveSegs a acc (l.filter (fun s => s ≠ [])) := by
  induction l with
  | nil => intro _; rfl
  | cons x xs ih =>
    intro acc
    by_cases hx : x = []
    · subst hx
      rw [resolveSegs_cons, resolveStep_skip _ _ _ (Or.inl rfl)]
      have hf : List.filter (fun s => decide (s ≠ [])) ([] :: xs) =
          List.filter (fun s => decide (s ≠ [])) xs := by simp
      rw [hf]
      exact ih acc
    · have hf : List.filter (fun s => decide (s ≠ [])) (x :: xs) =
          x :: List.filter (fun s => decide (s ≠ [])) xs := by simp [hx]
      rw [hf, resolveSegs_cons, resolveSegs_cons]
      exact ih _

theorem resolveSegs_push (a : Bool) (acc zs : List (List Char)) (seg : List Char)
    (h1 : ¬(seg = [] ∨ seg = ['.'])) (h2 : seg ≠ ['.', '.']) :
    resolveSegs a acc (zs ++ [seg]) = seg :: resolveSegs a acc zs := by
  rw [resolveSegs_append, resolveSegs_one]
  exact resolveStep_push _ _ _ h1 h2

theorem joinSegs_cons_cons (c : Char) (x y : List Char) (l : List (List Char)) :
    joinSegs c (x :: y :: l) = x ++ c :: joinSegs c (y :: l) := rfl

theorem joinSegs_append (c : Char) (R1 R2 : List (List Char)) (h1 : R1 ≠ []) (h2 : R2 ≠ []) :
    joinSegs c (R1 ++ R2) = joinSegs c R1 ++ c :: joinSegs c R2 := by
  induction R1 with
  | nil => cases h1 rfl
  | cons x xs ih =>
    cases xs with
    | nil =>
      cases R2 with
      | nil => cases h2 rfl
      | cons y ys => simp [joinSegs]
    | cons x2 xs2 =>
      rw [List.cons_append]
      show x ++ c :: joinSegs c ((x2 :: xs2) ++ R2) =
        joinSegs c (x :: x2 :: xs2) ++ c :: joinSegs c R2
      rw [ih (by simp), joinSegs_cons_cons]
      simp

theorem splitCharsOn_mem_no_sep (c : Char) (l : List Char) :
    ∀ s ∈ splitCharsOn c l, c ∉ s := by
  induction l with
  | nil =>
    intro s hs
    simp [splitCharsOn] at hs
    simp [hs]
  | cons x xs ih =>
    intro s hs
    unfold splitCharsOn at hs
    by_cases h : x = c
    · rw [if_pos h] at hs
      rcases List.mem_cons.mp hs with rfl | hs
      · simp
      · exact ih s hs
    · rw [if_neg h] at hs
      rcases hsp : splitCharsOn c xs with _ | ⟨h1, t1⟩
      · exact absurd hsp (splitCharsOn_ne_nil c xs)
      · rw [hsp] at hs
        rcases List.mem_cons.mp hs with rfl | hs
        · intro hmem
          rcases List.mem_cons.mp hmem with rfl | hmem
          · exact h rfl
          · exact ih h1 (hsp ▸ List.mem_cons_self _ _) hmem
        · exact ih s (hsp ▸ List.mem_cons_of_mem _ hs)

theorem splitCharsOn_joinSegs (c : Char) (R : List (List Char)) (hne : R ≠ [])
    (hns : ∀ s ∈ R, c ∉ s) : splitCharsOn c (joinSegs c R) = R := by
  induction R with
  | nil => cases hne rfl
  | cons x xs ih =>
    cases xs with
    | nil =>
      show splitCharsOn c (joinSegs c [x]) = [x]
      exact splitCharsOn_no_sep c x (hns x (List.mem_cons_self _ _))
    | cons y ys =>
      have hx : c ∉ x := hns x (List.mem_cons_self _ _)
      have : joinSegs c (x :: y :: ys) = x ++ c :: joinSegs c (y :: ys) := rfl
      rw [this, splitCharsOn_append, splitCharsOn_no_sep c x hx,
        ih (by simp) (fun s hs => hns s (List.mem_cons_of_mem _ hs))]
      rfl

/-! ## Helper lemmas for the path model -/

theorem string_data_append (a b : String) : (a ++ b).data = a.data ++ b.data := rfl

theorem splitCharsOn_cons_pos (c x : Char) (xs : List Char) (h : x = c) :
    splitCharsOn c (x :: xs) = [] :: splitCharsOn c xs := by
  simp only [splitCharsOn]
  rw [if_pos h]

theorem dropWhile_head_false {α : Type} (p : α → Bool) (l : List α) (x : α) (xs : List α)
    (h : l.dropWhile p = x :: xs) : p x = false := by
  induction l with
  | nil => simp at h
  | cons y ys ih =>
    rw [List.dropWhile_cons] at h
    by_cases hy : p y = true
    · rw [if_pos hy] at h
      exact ih h
    · rw [if_neg hy] at h
      cases h
      exact Bool.eq_false_iff.mpr hy

theorem splitCharsOn_dropWhile (c : Char) (l : List Char)
    (h : l.dropWhile (· = c) ≠ []) :
    splitCharsOn c (l.dropWhile (· = c)) = (splitCharsOn c l).dropWhile (fun s => s = []) := by
  induction l with
  | nil => simp at h
  | cons x xs ih =>
    by_cases hx : x = c
    · have hd1 : (x :: xs).dropWhile (· = c) = xs.dropWhile (· = c) := by
        rw [List.dropWhile_cons, if_pos (by simp [hx])]
      rw [hd1] at h
      rw [hd1, splitCharsOn_cons_pos c x xs hx, List.dropWhile_cons, if_pos (by simp)]
      exact ih h
    · rw [List.dropWhile_cons, if_neg (by simp [hx])]
      rcases hsp : splitCharsOn c xs with _ | ⟨h1, t1⟩
      · exact absurd hsp (splitCharsOn_ne_nil c xs)
      · have h2 : splitCharsOn c (x :: xs) = (x :: h1) :: t1 := by
          unfold splitCharsOn; rw [if_neg hx, hsp]
        rw [h2, List.dropWhile_cons, if_neg (by simp)]

theorem filter_dropWhile_nil (L : List (List Char)) :
    List.filter (fun s => s ≠ []) (L.dropWhile (fun s => s = [])) =
      List.filter (fun s => s ≠ []) L := by
  induction L with
  | nil => rfl
  | cons x xs ih =>
    by_cases hx : x = []
    · subst hx
      rw [List.dropWhile_cons, if_pos (by simp)]
      rw [List.filter_cons_of_neg (by simp)]
      exact ih
    · rw [List.dropWhile_cons, if_neg (by simp [hx])]

theorem resolveSegs_dropWhile (a : Bool) (acc : List (List Char)) (L : List (List Char)) :
    resolveSegs a acc (L.dropWhile (fun s => s = [])) = resolveSegs a acc L := by
  rw [resolveSegs_filter a _ acc, resolveSegs_filter a L acc, filter_dropWhile_nil]

theorem splitCharsOn_join (c : Char) (R : List (List Char)) (hne : R ≠ []) :
    splitCharsOn c (joinSegs c R) = (R.map (splitCharsOn c)).join := by
  induction R with
  | nil => cases hne rfl
  | cons x xs ih =>
    cases xs with
    | nil => simp [joinSegs]
    | cons y ys =>
      rw [joinSegs_cons_cons, splitCharsOn_append, ih (by simp)]
      rfl

theorem resolveSegs_join_filter (a : Bool) (parts : List String) :
    ∀ acc, resolveSegs a acc ((parts.map (fun p => splitCharsOn '/' p.data)).join) =
      resolveSegs a acc
        (((parts.filter (fun p => p ≠ "")).map (fun p => splitCharsOn '/' p.data)).join) := by
  induction parts with
  | nil => intro _; rfl
  | cons p ps ih =>
    intro acc
    by_cases hp : p = ""
    · subst hp
      have hsplit : splitCharsOn '/' ("" : String).data = [[]] := rfl
      rw [List.map_cons, hsplit, List.filter_cons_of_neg (by simp)]
      have : ([[]] :: List.map (fun p => splitCharsOn '/' p.data) ps).join =
          [] :: (List.map (fun p => splitCharsOn '/' p.data) ps).join := rfl
      rw [this, resolveSegs_cons, resolveStep_skip _ _ _ (Or.inl rfl)]
      exact ih acc
    · have hjc : ∀ (x : List (List Char)) (ls : List (List (List Char))),
          (x :: ls).join = x ++ ls.join := fun _ _ => rfl
      rw [List.filter_cons_of_pos (by simp [hp]), List.map_cons, List.map_cons,
        hjc, hjc, resolveSegs_append, resolveSegs_append]
      exact ih _

theorem joinSegs_head (c : Char) (z : List Char) (R : List (List Char)) (hz : z ≠ []) :
    (joinSegs c (z :: R)).head? = z.head? := by
  cases R with
  | nil =>
    rfl
  | cons y ys =>
    rw [joinSegs_cons_cons]
    cases z with
    | nil => cases hz rfl
    | cons a as => rfl

theorem joinSegs_getLast (c : Char) (R : List (List Char)) (z : List Char) (hz : z ≠ []) :
    (joinSegs c (R ++ [z])).getLast? = z.getLast? := by
  induction R with
  | nil => rfl
  | cons x xs ih =>
    rw [List.cons_append]
    have hjoin : joinSegs c (x :: (xs ++ [z])) = x ++ c :: joinSegs c (xs ++ [z]) := by
      rcases hxz : xs ++ [z] with _ | ⟨y, ys⟩
      · simp at hxz
      · exact joinSegs_cons_cons c x y ys
    rw [hjoin, List.getLast?_append_cons]
    rcases hJ : joinSegs c (xs ++ [z]) with _ | ⟨j, js⟩
    · rw [hJ] at ih
      cases z with
      | nil => cases hz rfl
      | cons a as => simp [List.getLast?] at ih
    · rw [hJ] at ih
      rw [List.getLast?_cons_cons]
      exact ih

theorem head?_append_left {α : Type} (l1 l2 : List α) (h : l1 ≠ []) :
    (l1 ++ l2).head? = l1.head? := by
  cases l1 with
  | nil => cases h rfl
  | cons x xs => rfl

theorem string_mk_data (l : List Char) : (String.mk l).data = l := rfl

theorem string_mk_ne_empty (l : List Char) (h : l ≠ []) : String.mk l ≠ "" :=
  fun he => h (congrArg String.data he)

theorem string_ne_empty_data (s : String) (h : s ≠ "") : s.data ≠ [] := by
  intro hd
  apply h
  have hs : s = String.mk s.data := rfl
  rw [hs, hd]

theorem posixNormalize_eq (s : String) (h : ¬ s = "") :
    posixNormalize s =
      normAssemble (decide (s.data.head? = some '/')) (decide (s.data.getLast? = some '/'))
        (resolveSegs (!(decide (s.data.head? = some '/'))) [] (splitCharsOn '/' s.data)) := by
  unfold posixNormalize
  rw [if_neg h]

theorem pathJoin_eq (parts : List String) (h : parts.filter (fun p => p ≠ "") ≠ []) :
    pathJoin parts =
      posixNormalize
        (String.mk (joinSegs '/' ((parts.filter (fun p => p ≠ "")).map String.data))) := by
  unfold pathJoin
  rw [if_neg h]

theorem normAssemble_false_false (R : List (List Char)) (h : joinSegs '/' R.reverse ≠ []) :
    normAssemble false false R = String.mk (joinSegs '/' R.reverse) := by
  unfold normAssemble
  rw [if_neg h]
  rfl

theorem listJoin_append {α : Type} (A B : List (List α)) : (A ++ B).join = A.join ++ B.join := by
  induction A with
  | nil => rfl
  | cons x xs ih =>
    rw [List.cons_append]
    show x ++ (xs ++ B).join = (x ++ xs.join) ++ B.join
    rw [ih, List.append_assoc]

/-- Core path identity behind C7: joining `outDir` with the
slash-stripped pathname (plus `index.html`) equals joining `outDir`
directly with the pathname's constituent parts (plus `index.html`),
provided the stripped pathname and the parts carve up into the same
non-empty segments. -/
theorem pathJoin_inner_strip (out : String) (S : List Char) (parts : List String)
    (hSne : S ≠ []) (hShead : S.head? ≠ some '/')
    (hparts : ∀ p ∈ parts, p.data.head? ≠ some '/')
    (hsegs : (splitCharsOn '/' S).filter (fun s => s ≠ []) =
      ((parts.map (fun p => splitCharsOn '/' p.data)).join).filter (fun s => s ≠ [])) :
    pathJoin [out, pathJoin [String.mk S, "index.html"]] =
      pathJoin ([out] ++ parts ++ ["index.html"]) := by
  have hidx_noslash : '/' ∉ ("index.html" : String).data := by decide
  have hidx_wf : ¬(("index.html" : String).data = [] ∨ ("index.html" : String).data = ['.']) := by
    decide
  have hidx_ndd : ("index.html" : String).data ≠ ['.', '.'] := by decide
  have hSmk_ne : String.mk S ≠ "" := string_mk_ne_empty S hSne
  have hfilter_inner : ([String.mk S, "index.html"] : List String).filter (fun p => p ≠ "") =
      [String.mk S, "index.html"] := by
    simp [hSmk_ne]
  have hinner1 : pathJoin [String.mk S, "index.html"] =
      posixNormalize (String.mk (S ++ '/' :: ("index.html" : String).data)) := by
    rw [pathJoin_eq _ (by rw [hfilter_inner]; simp), hfilter_inner]
    rfl
  have hs0ne : String.mk (S ++ '/' :: ("index.html" : String).data) ≠ "" :=
    string_mk_ne_empty _ (by simp)
  have habs0 : (S ++ '/' :: ("index.html" : String).data).head? = S.head? :=
    head?_append_left _ _ hSne
  have htrail0 : (S ++ '/' :: ("index.html" : String).data).getLast? = some 'l' := by
    rw [List.getLast?_append_cons]
    decide
  have hsegs0 : splitCharsOn '/' (S ++ '/' :: ("index.html" : String).data) =
      splitCharsOn '/' S ++ [("index.html" : String).data] := by
    rw [splitCharsOn_append, splitCharsOn_no_sep '/' _ hidx_noslash]
  have hX : resolveSegs true [] (splitCharsOn '/' S ++ [("index.html" : String).data]) =
      ("index.html" : String).data :: resolveSegs true [] (splitCharsOn '/' S) :=
    resolveSegs_push _ _ _ _ hidx_wf hidx_ndd
  have habsdec :
      decide ((String.mk (S ++ '/' :: ("index.html" : String).data)).data.head? = some '/') =
        false := by
    rw [string_mk_data, habs0]
    exact decide_eq_false hShead
  have htraildec :
      decide ((String.mk (S ++ '/' :: ("index.html" : String).data)).data.getLast? = some '/') =
        false := by
    rw [string_mk_data, htrail0]
    decide
  have hinner2 : posixNormalize (String.mk (S ++ '/' :: ("index.html" : String).data)) =
      normAssemble false false
        (("index.html" : String).data :: resolveSegs true [] (splitCharsOn '/' S)) := by
    rw [posixNormalize_eq _ hs0ne, habsdec, htraildec, string_mk_data, hsegs0,
      show (!false) = true from rfl, hX]
  set ST := resolveSegs true [] (splitCharsOn '/' S) with hST
  have hnoslashX : ∀ s ∈ ("index.html" : String).data :: ST, '/' ∉ s := by
    intro s hs
    rcases List.mem_cons.mp hs with rfl | hs
    · exact hidx_noslash
    · exact resolveSegs_noslash true [] _ (by simp) (splitCharsOn_mem_no_sep '/' S) s hs
  have hwfX : ∀ s ∈ ("index.html" : String).data :: ST, s ≠ [] ∧ s ≠ ['.'] := by
    intro s hs
    rcases List.mem_cons.mp hs with rfl | hs
    · exact ⟨by decide, by decide⟩
    · exact resolveSegs_wf true [] _ (by simp) s hs
  have hXrev : (("index.html" : String).data :: ST).reverse =
      ST.reverse ++ [("index.html" : String).data] := by simp
  have hcore_last : (joinSegs '/' (ST.reverse ++ [("index.html" : String).data])).getLast? =
      some 'l' := by
    rw [joinSegs_getLast '/' _ _ (by decide)]
    decide
  have hcore_ne : joinSegs '/' (ST.reverse ++ [("index.html" : String).data]) ≠ [] := by
    intro h
    rw [h] at hcore_last
    cases hcore_last
  have hinner3 : normAssemble false false (("index.html" : String).data :: ST) =
      String.mk (joinSegs '/' (ST.reverse ++ [("index.html" : String).data])) := by
    rw [normAssemble_false_false _ (by rw [hXrev]; exact hcore_ne), hXrev]
  set core := joinSegs '/' (ST.reverse ++ [("index.html" : String).data]) with hcoreDef
  have hinner : pathJoin [String.mk S, "index.html"] = String.mk core := by
    rw [hinner1, hinner2, hinner3]
  have hcore_split : splitCharsOn '/' core = ST.reverse ++ [("index.html" : String).data] := by
    rw [hcoreDef]
    apply splitCharsOn_joinSegs
    · simp
    · intro s hs
      apply hnoslashX
      rcases List.mem_append.mp hs with hs | hs
      · exact List.mem_cons_of_mem _ (List.mem_reverse.mp hs)
      · simp only [List.mem_singleton] at hs
        rw [hs]
        exact List.mem_cons_self _ _
  have hinner_ne : String.mk core ≠ "" := string_mk_ne_empty _ hcore_ne
  have hLfilter : (([out, String.mk core] : List String).filter (fun p => p ≠ "")) =
      ([out].filter (fun p => p ≠ "")) ++ [String.mk core] := by
    rw [show ([out, String.mk core] : List String) = [out] ++ [String.mk core] from rfl,
      List.filter_append]
    simp [hinner_ne]
  have hLHS : pathJoin [out, String.mk core] =
      posixNormalize (String.mk (joinSegs '/'
        ((([out].filter (fun p => p ≠ "")).map String.data) ++ [core]))) := by
    rw [pathJoin_eq _ (by rw [hLfilter]; simp), hLfilter, List.map_append]
    rfl
  have hRfilter : ((([out] ++ parts ++ ["index.html"]) : List String).filter (fun p => p ≠ "")) =
      ([out].filter (fun p => p ≠ "")) ++ (parts.filter (fun p => p ≠ "")) ++ ["index.html"] := by
    rw [List.filter_append, List.filter_append]
    simp
  have hRHS : pathJoin ([out] ++ parts ++ ["index.html"]) =
      posixNormalize (String.mk (joinSegs '/'
        ((([out].filter (fun p => p ≠ "")).map String.data) ++
          ((parts.filter (fun p => p ≠ "")).map String.data) ++
          [("index.html" : String).data]))) := by
    rw [pathJoin_eq _ (by rw [hRfilter]; simp), hRfilter, List.map_append, List.map_append]
    rfl
  set FD := ([out].filter (fun p => p ≠ "")).map String.data with hFD
  set PD := (parts.filter (fun p => p ≠ "")).map String.data with hPD
  have hjL_last : (joinSegs '/' (FD ++ [core])).getLast? = some 'l' := by
    rw [joinSegs_getLast '/' FD core hcore_ne]
    exact hcore_last
  have hjR_last :
      (joinSegs '/' (FD ++ PD ++ [("index.html" : String).data])).getLast? = some 'l' := by
    rw [joinSegs_getLast '/' (FD ++ PD) _ (by decide)]
    decide
  have hjL_ne : joinSegs '/' (FD ++ [core]) ≠ [] := by
    intro h
    rw [h] at hjL_last
    cases hjL_last
  have hjR_ne : joinSegs '/' (FD ++ PD ++ [("index.html" : String).data]) ≠ [] := by
    intro h
    rw [h] at hjR_last
    cases hjR_last
  have hcore_head : core.head? ≠ some '/' := by
    rcases hzr : ST.reverse ++ [("index.html" : String).data] with _ | ⟨z, R⟩
    · simp at hzr
    · have hz_in : z ∈ ("index.html" : String).data :: ST := by
        have : z ∈ ST.reverse ++ [("index.html" : String).data] := by
          rw [hzr]; exact List.mem_cons_self _ _
        rcases List.mem_append.mp this with hz | hz
        · exact List.mem_cons_of_mem _ (List.mem_reverse.mp hz)
        · simp only [List.mem_singleton] at hz
          rw [hz]
          exact List.mem_cons_self _ _
      have hzne : z ≠ [] := (hwfX z hz_in).1
      have hzns : '/' ∉ z := hnoslashX z hz_in
      rw [hcoreDef, hzr, joinSegs_head '/' z R hzne]
      cases z with
      | nil => cases hzne rfl
      | cons z0 zs =>
        intro hcontra
        simp only [List.head?_cons, Option.some.injEq] at hcontra
        exact hzns (by rw [hcontra]; exact List.mem_cons_self _ _)
  have hhead : ((joinSegs '/' (FD ++ [core])).head? = some '/') ↔
      ((joinSegs '/' (FD ++ PD ++ [("index.html" : String).data])).head? = some '/') := by
    by_cases hout : out = ""
    · have hFDnil : FD = [] := by
        rw [hFD, hout]
        rfl
      rw [hFDnil, List.nil_append, List.nil_append]
      have hL : (joinSegs '/' [core]).head? = core.head? := rfl
      rw [hL]
      have hR : (joinSegs '/' (PD ++ [("index.html" : String).data])).head? ≠ some '/' := by
        rcases hfp : parts.filter (fun p => p ≠ "") with _ | ⟨p, ps2⟩
        · rw [hPD, hfp]
          decide
        · have hpne : p ≠ "" := by
            have hmem : p ∈ parts.filter (fun p => p ≠ "") := by
              rw [hfp]; exact List.mem_cons_self _ _
            simpa using (List.of_mem_filter hmem)
          have hphead : p.data.head? ≠ some '/' :=
            hparts p (List.mem_of_mem_filter (by rw [hfp]; exact List.mem_cons_self _ _))
          rw [hPD, hfp, List.map_cons, List.cons_append,
            joinSegs_head '/' p.data _ (string_ne_empty_data p hpne)]
          exact hphead
      exact iff_of_false hcore_head hR
    · have hFDone : FD = [out.data] := by
        rw [hFD]
        simp [hout]
      have houtd : out.data ≠ [] := string_ne_empty_data out hout
      rw [hFDone]
      have hL : ([out.data] ++ [core] : List (List Char)) = out.data :: [core] := rfl
      have hR : ([out.data] ++ PD ++ [("index.html" : String).data] : List (List Char)) =
          out.data :: (PD ++ [("index.html" : String).data]) := by simp
      rw [hL, hR, joinSegs_head '/' out.data _ houtd, joinSegs_head '/' out.data _ houtd]
  have hres : ∀ aa : Bool,
      resolveSegs aa [] (splitCharsOn '/' (joinSegs '/' (FD ++ [core]))) =
        resolveSegs aa []
          (splitCharsOn '/' (joinSegs '/' (FD ++ PD ++ [("index.html" : String).data]))) := by
    intro aa
    rw [splitCharsOn_join _ _ (by simp), splitCharsOn_join _ _ (by simp)]
    have hsplitL : ((FD ++ [core]).map (splitCharsOn '/')).join =
        (FD.map (splitCharsOn '/')).join ++ (ST.reverse ++ [("index.html" : String).data]) := by
      rw [List.map_append, listJoin_append]
      simp [hcore_split]
    have hsplitR : ((FD ++ PD ++ [("index.html" : String).data]).map (splitCharsOn '/')).join =
        (FD.map (splitCharsOn '/')).join ++
          ((PD.map (splitCharsOn '/')).join ++ [("index.html" : String).data]) := by
      rw [List.map_append, List.map_append, listJoin_append, listJoin_append]
      simp [splitCharsOn_no_sep '/' _ hidx_noslash, List.append_assoc]
    rw [hsplitL, hsplitR,
      resolveSegs_append aa [] (FD.map (splitCharsOn '/')).join
        (ST.reverse ++ [("index.html" : String).data]),
      resolveSegs_append aa [] (FD.map (splitCharsOn '/')).join
        ((PD.map (splitCharsOn '/')).join ++ [("index.html" : String).data]),
      resolveSegs_push _ _ _ _ hidx_wf hidx_ndd,
      resolveSegs_push _ _ _ _ hidx_wf hidx_ndd,
      hST, resolveSegs_reprocess]
    congr 1
    rw [resolveSegs_filter aa (splitCharsOn '/' S), hsegs, ← resolveSegs_filter,
      resolveSegs_join_filter aa parts, hPD]
    simp only [List.map_map]
    rfl
  rw [hinner, hLHS, hRHS,
    posixNormalize_eq _ (string_mk_ne_empty _ hjL_ne),
    posixNormalize_eq _ (string_mk_ne_empty _ hjR_ne)]
  simp only [string_mk_data]
  have hflag : decide ((joinSegs '/' (FD ++ [core])).head? = some '/') =
      decide ((joinSegs '/' (FD ++ PD ++ [("index.html" : String).data])).head? = some '/') :=
    decide_eq_decide.mpr hhead
  have htrL : decide ((joinSegs '/' (FD ++ [core])).getLast? = some '/') = false := by
    rw [hjL_last]
    decide
  have htrR : decide
      ((joinSegs '/' (FD ++ PD ++ [("index.html" : String).data])).getLast? = some '/') =
        false := by
    rw [hjR_last]
    decide
  rw [hflag, htrL, htrR, hres]

theorem dirnameAux_ne_nil (c0 : Char) (r : List Char) : dirnameAux c0 r ≠ [] := by
  cases r with
  | nil =>
    unfold dirnameAux
    split_ifs <;> simp
  | cons x tl =>
    cases tl with
    | nil =>
      unfold dirnameAux
      split_ifs <;> simp
    | cons y tl2 =>
      unfold dirnameAux
      simp

theorem dirnameAux_head (c0 : Char) (r : List Char) (hc0 : c0 ≠ '/') :
    (dirnameAux c0 r).head? ≠ some '/' := by
  cases r with
  | nil =>
    unfold dirnameAux
    rw [if_neg hc0]
    simp
  | cons x tl =>
    cases tl with
    | nil =>
      show (if c0 = '/' then ['/', '/'] else [c0]).head? ≠ some '/'
      rw [if_neg hc0]
      simpa using hc0
    | cons y tl2 =>
      show (c0 :: (y :: tl2).reverse).head? ≠ some '/'
      simpa using hc0

theorem dirnameChars_ne_nil (l : List Char) : dirnameChars l ≠ [] := by
  cases l with
  | nil => simp [dirnameChars]
  | cons c0 rest => exact dirnameAux_ne_nil c0 _

theorem dirname_ne_empty (s : String) : dirname s ≠ "" :=
  string_mk_ne_empty _ (dirnameChars_ne_nil s.data)

theorem dirnameChars_head (l : List Char) (h : l.head? ≠ some '/') :
    (dirnameChars l).head? ≠ some '/' := by
  cases l with
  | nil => simp [dirnameChars]
  | cons c0 rest =>
    have hc0 : c0 ≠ '/' := by
      intro hc
      exact h (by rw [hc]; rfl)
    exact dirnameAux_head c0 _ hc0

theorem basenameStrip_subset (ext name : List Char) :
    ∀ x ∈ basenameStrip ext name, x ∈ name := by
  intro x hx
  unfold basenameStrip at hx
  split_ifs at hx
  · exact List.take_subset _ _ hx
  · exact hx

theorem basenameExtChars_noslash (l ext : List Char) : '/' ∉ basenameExtChars l ext := by
  unfold basenameExtChars
  intro hmem
  have hmem2 := basenameStrip_subset _ _ _ hmem
  rw [List.mem_reverse] at hmem2
  have := List.mem_takeWhile_imp hmem2
  simp at this

theorem basenameExt_head (s ext : String) : (basenameExt s ext).data.head? ≠ some '/' := by
  intro h
  have hmem : '/' ∈ (basenameExt s ext).data := by
    rcases hd : (basenameExt s ext).data with _ | ⟨x, xs⟩
    · rw [hd] at h; cases h
    · rw [hd] at h
      simp only [List.head?_cons, Option.some.injEq] at h
      subst h
      exact List.mem_cons_self _ _
  exact basenameExtChars_noslash s.data ext.data hmem

/-- The path computation applied by `resolveHtmlPathByHugoList` to a
permalink whose URL pathname has Hugo's default layout
`/<dir>/<slug>/` agrees with the older revision's
`path.join(outDir, dirname relPath, basename(relPath, ".md"),
"index.html")`. -/
theorem htmlPath_default_layout (outDir relPath permalink : String)
    (hrel : relPath.data.head? ≠ some '/')
    (hurl : urlPathname permalink =
      some ("/" ++ dirname relPath ++ "/" ++ basenameExt relPath ".md" ++ "/")) :
    htmlPathFromPermalink outDir permalink = some (oldRevisionHtmlPath outDir relPath) := by
  unfold htmlPathFromPermalink
  rw [hurl]
  apply congrArg some
  have hdne : (dirname relPath).data ≠ [] := string_ne_empty_data _ (dirname_ne_empty relPath)
  have hdhead : (dirname relPath).data.head? ≠ some '/' := dirnameChars_head relPath.data hrel
  obtain ⟨c, cs, hdD⟩ : ∃ c cs, (dirname relPath).data = c :: cs := by
    rcases hd : (dirname relPath).data with _ | ⟨c, cs⟩
    · exact absurd hd hdne
    · exact ⟨c, cs, rfl⟩
  have hcne : c ≠ '/' := by
    intro hc
    apply hdhead
    rw [hdD, hc]
    rfl
  have hPdata : ("/" ++ dirname relPath ++ "/" ++ basenameExt relPath ".md" ++ "/").data =
      '/' :: ((dirname relPath).data ++ '/' ::
        ((basenameExt relPath ".md").data ++ ['/'])) := by
    simp [string_data_append]
  have hS : ("/" ++ dirname relPath ++ "/" ++ basenameExt relPath ".md" ++ "/").data.dropWhile
      (· = '/') = (dirname relPath).data ++ '/' ::
        ((basenameExt relPath ".md").data ++ ['/']) := by
    rw [hPdata, List.dropWhile_cons, if_pos (by simp), hdD, List.cons_append,
      List.dropWhile_cons, if_neg (by simp [hcne])]
  rw [hS]
  have hmain := pathJoin_inner_strip outDir
    ((dirname relPath).data ++ '/' :: ((basenameExt relPath ".md").data ++ ['/']))
    [dirname relPath, basenameExt relPath ".md"]
    (by simp [hdD])
    (by rw [head?_append_left _ _ hdne]; exact hdhead)
    (by
      intro p hp
      rcases List.mem_cons.mp hp with rfl | hp
      · exact hdhead
      · simp only [List.mem_singleton] at hp
        rw [hp]
        exact basenameExt_head relPath ".md")
    (by
      rw [splitCharsOn_append]
      have hb : (basenameExt relPath ".md").data ++ ['/'] =
          (basenameExt relPath ".md").data ++ '/' :: [] := rfl
      rw [hb, splitCharsOn_append]
      have hjoin : (([dirname relPath, basenameExt relPath ".md"].map
          (fun p => splitCharsOn '/' p.data)).join) =
        splitCharsOn '/' (dirname relPath).data ++
          (splitCharsOn '/' (basenameExt relPath ".md").data ++ []) := rfl
      rw [hjoin]
      simp only [List.filter_append, List.append_assoc]
      have hnil : (splitCharsOn '/' ([] : List Char)).filter (fun s => s ≠ []) = [] := by
        simp [splitCharsOn]
      rw [hnil]
      simp)
  rw [hmain]
  rfl

/-- **C7.** The two revisions agree on Hugo's default layout.  For a
content-relative `relPath` (not starting with `/`) whose permalink's URL
pathname is `"/" + dirname(relPath) + "/" + basename(relPath, ".md") +
"/"`, the permalink-to-HTML-path step of `resolveHtmlPathByHugoList`
yields exactly the older revision's `path.join(outDir, dirname(relPath),
basename(relPath, ".md"), "index.html")`; and end to end, on a
`hugo list all` output whose data row for `content/<relPath>` carries
that permalink, `resolveHtmlPathByHugoList` returns that same path. -/
theorem C7_default_layout_agreement (outDir relPath permalink : String)
    (hrel : relPath.data.head? ≠ some '/')
    (hurl : urlPathname permalink =
      some ("/" ++ dirname relPath ++ "/" ++ basenameExt relPath ".md" ++ "/"))
    (hrc : ',' ∉ relPath.data) (hrn : '\n' ∉ relPath.data)
    (hpc : ',' ∉ permalink.data) (hpn : '\n' ∉ permalink.data)
    (htrim : jsTrim ("path,permalink\ncontent/" ++ relPath ++ "," ++ permalink) =
      "path,permalink\ncontent/" ++ relPath ++ "," ++ permalink) :
    htmlPathFromPermalink outDir permalink = some (oldRevisionHtmlPath outDir relPath) ∧
    resolveHtmlPathByHugoList ("path,permalink\ncontent/" ++ relPath ++ "," ++ permalink)
        outDir relPath = .ok (oldRevisionHtmlPath outDir relPath) := by
  have hA : htmlPathFromPermalink outDir permalink = some (oldRevisionHtmlPath outDir relPath) :=
    htmlPath_default_layout outDir relPath permalink hrel hurl
  refine ⟨hA, ?_⟩
  have hpne : ¬ permalink = "" := by
    intro he
    have hnone : urlPathname "" = none := rfl
    rw [he, hnone] at hurl
    exact Option.noConfusion hurl
  have hrowd : ("content/" ++ relPath ++ "," ++ permalink).data =
      ("content/" ++ relPath).data ++ ',' :: permalink.data := by
    simp [string_data_append]
  have hnoc : ',' ∉ ("content/" ++ relPath).data := by
    rw [string_data_append]
    intro hmem
    rcases List.mem_append.mp hmem with h | h
    · revert h; decide
    · exact hrc h
  have hsplitC : splitOnChar ',' ("content/" ++ relPath ++ "," ++ permalink) =
      ["content/" ++ relPath, permalink] := by
    unfold splitOnChar
    rw [hrowd, splitCharsOn_append, splitCharsOn_no_sep ',' _ hnoc,
      splitCharsOn_no_sep ',' _ hpc]
    rfl
  have hnon : '\n' ∉ ("content/" ++ relPath ++ "," ++ permalink).data := by
    rw [hrowd, string_data_append]
    simp only [List.mem_append, List.mem_cons, not_or]
    refine ⟨⟨by decide, hrn⟩, by decide, hpn⟩
  have hlit : ("path,permalink\ncontent/" : String).data =
      "path,permalink".data ++ '\n' :: ("content/" : String).data := by decide
  have hstdd : ("path,permalink\ncontent/" ++ relPath ++ "," ++ permalink).data =
      "path,permalink".data ++ '\n' :: ("content/" ++ relPath ++ "," ++ permalink).data := by
    simp [string_data_append, hlit]
  have hsplitN : splitOnChar '\n' ("path,permalink\ncontent/" ++ relPath ++ "," ++ permalink) =
      ["path,permalink", "content/" ++ relPath ++ "," ++ permalink] := by
    unfold splitOnChar
    rw [hstdd, splitCharsOn_append, splitCharsOn_no_sep '\n' _ (by decide),
      splitCharsOn_no_sep '\n' _ hnon]
    rfl
  unfold resolveHtmlPathByHugoList
  rw [htrim, hsplitN]
  show scanRows 0 1 (normalizeSlashes ("content/" ++ relPath)) outDir
      ["content/" ++ relPath ++ "," ++ permalink] =
    Except.ok (oldRevisionHtmlPath outDir relPath)
  rw [scanRows_eq_find]
  have hstop : rowStops 0 (normalizeSlashes ("content/" ++ relPath))
      ("content/" ++ relPath ++ "," ++ permalink) = true := by
    unfold rowStops
    rw [hsplitC]
    simp
  rw [List.find?_cons_of_pos _ hstop]
  show rowOutcome 0 1 outDir ("content/" ++ relPath ++ "," ++ permalink) =
    Except.ok (oldRevisionHtmlPath outDir relPath)
  unfold rowOutcome
  rw [hsplitC]
  show (if permalink = "" then Except.error ListErr.permalinkMissing
    else match htmlPathFromPermalink outDir permalink with
      | none => Except.error ListErr.urlError
      | some htmlPath => Except.ok htmlPath) =
    Except.ok (oldRevisionHtmlPath outDir relPath)
  rw [if_neg hpne, hA]

theorem C7_default_layout_agreement_witness :
    htmlPathFromPermalink "public" "http://localhost:1313/guides/install/" =
      some (oldRevisionHtmlPath "public" "guides/install.md") ∧
    resolveHtmlPathByHugoList
        ("path,permalink\ncontent/" ++ "guides/install.md" ++ "," ++
          "http://localhost:1313/guides/install/") "public" "guides/install.md" =
      .ok (oldRevisionHtmlPath "public" "guides/install.md") :=
  C7_default_layout_agreement "public" "guides/install.md" "http://localhost:1313/guides/install/"
    (by decide) (by decide) (by decide) (by decide) (by decide) (by decide) (by decide)

/-! ## Clean-path lemmas for the `openPreview` copy step -/

theorem string_data_inj (s t : String) (h : s.data = t.data) : s = t := by
  cases s
  cases t
  exact congrArg String.mk h

theorem string_mk_data_self (s : String) : String.mk s.data = s := rfl

theorem isPrefixOf_self_append (l r : List Char) : l.isPrefixOf (l ++ r) = true :=
  List.isPrefixOf_iff_prefix.mpr (List.prefix_append l r)

theorem strStartsWith_append (a b : String) : strStartsWith (a ++ b) a = true := by
  unfold strStartsWith
  rw [string_data_append]
  exact isPrefixOf_self_append a.data b.data

theorem cleanSeg_spec (s : List Char) (h : cleanSeg s = true) :
    s ≠ [] ∧ s ≠ ['.'] ∧ s ≠ ['.', '.'] := by
  simpa [cleanSeg] using h

theorem resolveSegs_clean (a : Bool) (S : List (List Char)) (h : S.all cleanSeg = true) :
    ∀ acc, resolveSegs a acc S = S.reverse ++ acc := by
  induction S with
  | nil => intro acc; simp [resolveSegs]
  | cons x xs ih =>
    intro acc
    rw [List.all_cons, Bool.and_eq_true] at h
    obtain ⟨hx1, hx2, hx3⟩ := cleanSeg_spec x h.1
    rw [resolveSegs_cons, resolveStep_push a acc x (fun hor => hor.elim hx1 hx2) hx3, ih h.2]
    simp

theorem splitCharsOn_clean_ne (r : List Char) (h : (splitCharsOn '/' r).all cleanSeg = true) :
    r ≠ [] := by
  intro he
  subst he
  simp [splitCharsOn, cleanSeg] at h

theorem filter_clean (S : List (List Char)) (h : S.all cleanSeg = true) :
    S.filter (fun seg => seg ≠ []) = S := by
  rw [List.filter_eq_self]
  intro a ha
  exact decide_eq_true (cleanSeg_spec a ((List.all_eq_true.mp h) a ha)).1

theorem clean_getLast (r : List Char) (h : (splitCharsOn '/' r).all cleanSeg = true) :
    r.getLast? ≠ some '/' := by
  rcases List.eq_nil_or_concat (splitCharsOn '/' r) with hnil | ⟨R, z, hRz⟩
  · exact absurd hnil (splitCharsOn_ne_nil '/' r)
  · rw [List.concat_eq_append] at hRz
    have hzmem : z ∈ splitCharsOn '/' r := by rw [hRz]; simp
    have hzclean := (List.all_eq_true.mp h) z hzmem
    have hzne : z ≠ [] := (cleanSeg_spec z hzclean).1
    have hzslash : '/' ∉ z := splitCharsOn_mem_no_sep '/' r z hzmem
    have hlast : r.getLast? = z.getLast? := by
      conv_lhs => rw [← joinSegs_splitCharsOn '/' r, hRz]
      exact joinSegs_getLast '/' R z hzne
    rw [hlast]
    intro hz
    apply hzslash
    rcases List.eq_nil_or_concat z with hznil | ⟨z0, c, hz0⟩
    · exact absurd hznil hzne
    · rw [hz0, List.concat_eq_append, List.getLast?_append_cons] at hz
      simp only [List.getLast?_singleton, Option.some.injEq] at hz
      rw [hz0, List.concat_eq_append, hz]
      simp

theorem cleanAbs_spec (s : String) (h : cleanAbs s = true) :
    ∃ w, s.data = '/' :: w ∧ w ≠ [] ∧ (splitCharsOn '/' w).all cleanSeg = true := by
  simp only [cleanAbs, decide_eq_true_eq, Bool.decide_and, Bool.and_eq_true] at h
  obtain ⟨h1, h2, h3⟩ := h
  rcases hd : s.data with _ | ⟨c, w⟩
  · rw [hd] at h1
    exact absurd h1 (by simp [List.head?])
  · rw [hd] at h1 h2 h3
    simp only [List.head?_cons, Option.some.injEq] at h1
    refine ⟨w, by rw [h1], by simpa using h2, by simpa using h3⟩

theorem commonPrefixLen_append (l r : List (List Char)) :
    commonPrefixLen l (l ++ r) = l.length := by
  induction l with
  | nil => cases r <;> rfl
  | cons x xs ih => simp [commonPrefixLen, ih]

theorem normAssemble_true_false (R : List (List Char)) (h : joinSegs '/' R.reverse ≠ []) :
    normAssemble true false R = String.mk ('/' :: joinSegs '/' R.reverse) := by
  unfold normAssemble
  rw [if_neg h]
  rfl

theorem pathResolve_abs (cwd : String) (u : List Char) (hu : u ≠ [])
    (hclean : (splitCharsOn '/' u).all cleanSeg = true) :
    pathResolve cwd (String.mk ('/' :: u)) = String.mk ('/' :: u) := by
  have hd : (String.mk ('/' :: u)).data.head? = some '/' := rfl
  have hcore : joinSegs '/'
      ((resolveSegs false [] (splitCharsOn '/' (String.mk ('/' :: u)).data)).reverse) = u := by
    rw [string_mk_data, splitCharsOn_cons_pos '/' '/' u rfl, resolveSegs_cons,
      resolveStep_skip false [] [] (Or.inl rfl), resolveSegs_clean false _ hclean []]
    rw [List.append_nil, List.reverse_reverse, joinSegs_splitCharsOn]
  simp only [pathResolve]
  rw [if_pos hd]
  rw [show decide ((String.mk ('/' :: u)).data.head? = some '/') = true from decide_eq_true hd,
    Bool.not_true, hcore, if_pos hd, if_neg hu]

theorem pathResolve_cleanAbs (cwd A : String) (hA : cleanAbs A = true) :
    pathResolve cwd A = A := by
  obtain ⟨w, hAd, hw, hwc⟩ := cleanAbs_spec A hA
  have hA' : A = String.mk ('/' :: w) := string_data_inj _ _ (by rw [hAd, string_mk_data])
  rw [hA']
  exact pathResolve_abs cwd w hw hwc

theorem cleanAbs_append (A r : String) (hA : cleanAbs A = true)
    (hr : (splitCharsOn '/' r.data).all cleanSeg = true) :
    cleanAbs (A ++ "/" ++ r) = true := by
  obtain ⟨w, hAd, hw, hwc⟩ := cleanAbs_spec A hA
  have hd : (A ++ "/" ++ r).data = '/' :: (w ++ '/' :: r.data) := by
    simp [string_data_append, hAd]
  unfold cleanAbs
  rw [hd]
  simp [splitCharsOn_append, List.all_append, hwc, hr]

theorem pathJoin_pair (A r : String) (hA : cleanAbs A = true)
    (hr : (splitCharsOn '/' r.data).all cleanSeg = true) :
    pathJoin [A, r] = A ++ "/" ++ r := by
  obtain ⟨w, hAd, hw, hwc⟩ := cleanAbs_spec A hA
  have hrne : r.data ≠ [] := splitCharsOn_clean_ne r.data hr
  have hAne : A ≠ "" := by
    intro he
    rw [he] at hAd
    exact List.noConfusion hAd
  have hrne' : r ≠ "" := fun he => hrne (by rw [he])
  have hfilter : ([A, r].filter (fun p => p ≠ "")) = [A, r] := by
    simp [hAne, hrne']
  have hSWne : splitCharsOn '/' w ≠ [] := splitCharsOn_ne_nil '/' w
  have hSRne : splitCharsOn '/' r.data ≠ [] := splitCharsOn_ne_nil '/' r.data
  rw [pathJoin_eq [A, r] (by rw [hfilter]; simp), hfilter]
  have hjoin : joinSegs '/' ([A, r].map String.data) = A.data ++ '/' :: r.data := rfl
  rw [hjoin]
  have hsne : String.mk (A.data ++ '/' :: r.data) ≠ "" :=
    string_mk_ne_empty _ (by simp [hAd])
  rw [posixNormalize_eq _ hsne, string_mk_data]
  have hh : (A.data ++ '/' :: r.data).head? = some '/' := by
    rw [hAd]
    rfl
  have hlast : (A.data ++ '/' :: r.data).getLast? ≠ some '/' := by
    rw [List.getLast?_append_cons]
    rcases hrd : r.data with _ | ⟨y, ys⟩
    · exact absurd hrd hrne
    · rw [List.getLast?_cons_cons]
      rw [← hrd]
      exact clean_getLast r.data hr
  rw [show decide ((A.data ++ '/' :: r.data).head? = some '/') = true from decide_eq_true hh,
    show decide ((A.data ++ '/' :: r.data).getLast? = some '/') = false from
      decide_eq_false hlast, Bool.not_true]
  have hres : resolveSegs false [] (splitCharsOn '/' (A.data ++ '/' :: r.data)) =
      (splitCharsOn '/' w ++ splitCharsOn '/' r.data).reverse := by
    rw [hAd, List.cons_append, splitCharsOn_cons_pos '/' '/' _ rfl, splitCharsOn_append,
      resolveSegs_cons, resolveStep_skip false [] [] (Or.inl rfl), resolveSegs_append,
      resolveSegs_clean false _ hwc [], List.append_nil,
      resolveSegs_clean false _ hr ((splitCharsOn '/' w).reverse), List.reverse_append]
  rw [hres]
  have hcorene : joinSegs '/'
      ((splitCharsOn '/' w ++ splitCharsOn '/' r.data).reverse.reverse) =
        w ++ '/' :: r.data := by
    rw [List.reverse_reverse, joinSegs_append '/' _ _ hSWne hSRne,
      joinSegs_splitCharsOn, joinSegs_splitCharsOn]
  rw [normAssemble_true_false _ (by rw [hcorene]; simp [hw]), hcorene]
  apply string_data_inj
  simp [string_data_append, hAd]

theorem pathRelative_under (cwd A r : String) (hA : cleanAbs A = true)
    (hr : (splitCharsOn '/' r.data).all cleanSeg = true) :
    pathRelative cwd A (A ++ "/" ++ r) = r := by
  obtain ⟨w, hAd, hw, hwc⟩ := cleanAbs_spec A hA
  have hres1 : pathResolve cwd A = A := pathResolve_cleanAbs cwd A hA
  have hres2 : pathResolve cwd (A ++ "/" ++ r) = A ++ "/" ++ r :=
    pathResolve_cleanAbs cwd _ (cleanAbs_append A r hA hr)
  have hd2 : (A ++ "/" ++ r).data = '/' :: (w ++ '/' :: r.data) := by
    simp [string_data_append, hAd]
  simp only [pathRelative]
  rw [hres1, hres2, hAd, hd2, splitCharsOn_cons_pos '/' '/' w rfl,
    splitCharsOn_cons_pos '/' '/' _ rfl, splitCharsOn_append]
  have hfSW : (([] : List Char) :: splitCharsOn '/' w).filter (fun seg => seg ≠ []) =
      (splitCharsOn '/' w).filter (fun seg => seg ≠ []) := rfl
  have hfT : (([] : List Char) :: (splitCharsOn '/' w ++ splitCharsOn '/' r.data)).filter
      (fun seg => seg ≠ []) =
        (splitCharsOn '/' w ++ splitCharsOn '/' r.data).filter (fun seg => seg ≠ []) := rfl
  rw [hfSW, hfT, List.filter_append, filter_clean _ hwc, filter_clean _ hr,
    commonPrefixLen_append, Nat.sub_self, List.replicate_zero, List.nil_append,
    List.drop_left, joinSegs_splitCharsOn, string_mk_data_self]

/-- C2 counterexample.  `openPreview` never cleans the temporary
content directory, so a file left there by an earlier preview survives
the copy step: starting from a filesystem holding
`/gs/run/content/old.md`, previewing `/ws/content/new.md` leaves TWO
files under `<globalStorage>/run/content`, not exactly one. -/
theorem C2_counterexample :
    openPreviewCopyStep ⟨[("/gs/run/content/old.md", "stale")]⟩
        (some ⟨"markdown", "/ws/content/new.md", "hello"⟩) (some "/ws")
        (Except.ok "hugo") "/" "/gs" =
      Except.ok
        (⟨[("/gs/run/content/old.md", "stale"), ("/gs/run/content/new.md", "hello")]⟩,
          "/gs/run/content/new.md") ∧
    filesUnderDir
        ⟨[("/gs/run/content/old.md", "stale"), ("/gs/run/content/new.md", "hello")]⟩
        (tempContentDir "/gs") =
      ["/gs/run/content/old.md", "/gs/run/content/new.md"] ∧
    ["/gs/run/content/old.md", "/gs/run/content/new.md"] ≠ ["/gs/run/content/new.md"] :=
  ⟨rfl, rfl, by decide⟩

/-- **C2** (amended).  The copy step of `openPreview` writes the opened
document's text at its `<workspace>/content`-relative path inside the
temporary content directory `<globalStorage>/run/content`; it removes
nothing, so the directory holds exactly that one file only when it
starts out empty. -/
theorem C2_copy_single_file (fs : SimpleFS) (doc : DocModel)
    (workspace storeRoot rest cwd hugo : String)
    (hlang : doc.languageId = "markdown")
    (hws : cleanAbs workspace = true)
    (hst : cleanAbs storeRoot = true)
    (hrest : (splitCharsOn '/' rest.data).all cleanSeg = true)
    (hdoc : doc.fsPath = workspace ++ "/" ++ "content" ++ "/" ++ rest)
    (hstart : filesUnderDir fs (tempContentDir storeRoot) = []) :
    openPreviewCopyStep fs (some doc) (some workspace) (.ok hugo) cwd storeRoot =
      .ok (fsWrite fs (tempContentDir storeRoot ++ "/" ++ rest) doc.text,
        tempContentDir storeRoot ++ "/" ++ rest) ∧
    (fsWrite fs (tempContentDir storeRoot ++ "/" ++ rest) doc.text).files =
      fs.files ++ [(tempContentDir storeRoot ++ "/" ++ rest, doc.text)] ∧
    filesUnderDir (fsWrite fs (tempContentDir storeRoot ++ "/" ++ rest) doc.text)
        (tempContentDir storeRoot) = [tempContentDir storeRoot ++ "/" ++ rest] := by
  have hcontent : (splitCharsOn '/' ("content" : String).data).all cleanSeg = true := by decide
  have hrun : (splitCharsOn '/' ("run" : String).data).all cleanSeg = true := by decide
  have hWc : cleanAbs (workspace ++ "/" ++ "content") = true := cleanAbs_append _ _ hws hcontent
  have hDocClean : cleanAbs (workspace ++ "/" ++ "content" ++ "/" ++ rest) = true :=
    cleanAbs_append _ _ hWc hrest
  have hCR : pathJoin [workspace, "content"] = workspace ++ "/" ++ "content" :=
    pathJoin_pair _ _ hws hcontent
  have hRR : pathJoin [storeRoot, "run"] = storeRoot ++ "/" ++ "run" :=
    pathJoin_pair _ _ hst hrun
  have hRRc : cleanAbs (storeRoot ++ "/" ++ "run") = true := cleanAbs_append _ _ hst hrun
  have hCD : pathJoin [storeRoot ++ "/" ++ "run", "content"] =
      storeRoot ++ "/" ++ "run" ++ "/" ++ "content" := pathJoin_pair _ _ hRRc hcontent
  have hCDc : cleanAbs (storeRoot ++ "/" ++ "run" ++ "/" ++ "content") = true :=
    cleanAbs_append _ _ hRRc hcontent
  have htemp : tempContentDir storeRoot = storeRoot ++ "/" ++ "run" ++ "/" ++ "content" := by
    unfold tempContentDir
    rw [hRR, hCD]
  have hdst : pathJoin [storeRoot ++ "/" ++ "run" ++ "/" ++ "content", rest] =
      storeRoot ++ "/" ++ "run" ++ "/" ++ "content" ++ "/" ++ rest :=
    pathJoin_pair _ _ hCDc hrest
  have hsw : strStartsWith (workspace ++ "/" ++ "content" ++ "/" ++ rest)
      (workspace ++ "/" ++ "content" ++ "/") = true :=
    strStartsWith_append (workspace ++ "/" ++ "content" ++ "/") rest
  have hcheck : openPreviewCheck (some doc) (some workspace) (.ok hugo) cwd =
      .ok (doc, workspace) := by
    simp only [openPreviewCheck]
    rw [hlang, if_neg (fun hne => hne rfl), hCR, hdoc,
      pathResolve_cleanAbs cwd _ hDocClean, pathResolve_cleanAbs cwd _ hWc]
    have hno : ¬(¬(strStartsWith (workspace ++ "/" ++ "content" ++ "/" ++ rest)
        (workspace ++ "/" ++ "content" ++ "/") = true) ∧
          workspace ++ "/" ++ "content" ++ "/" ++ rest ≠ workspace ++ "/" ++ "content") :=
      fun hcond => hcond.1 hsw
    rw [if_neg hno]
  have hsw2 : strStartsWith (tempContentDir storeRoot ++ "/" ++ rest)
      (tempContentDir storeRoot ++ "/") = true :=
    strStartsWith_append (tempContentDir storeRoot ++ "/") rest
  have hnotin : fs.files.any (fun e => e.1 = tempContentDir storeRoot ++ "/" ++ rest) = false := by
    rw [Bool.eq_false_iff]
    intro hany
    obtain ⟨e, he, heq⟩ := List.any_eq_true.mp hany
    have heq' : e.1 = tempContentDir storeRoot ++ "/" ++ rest := of_decide_eq_true heq
    have hmem2 : e.1 ∈ (fs.files.map Prod.fst).filter
        (fun p => strStartsWith p (tempContentDir storeRoot ++ "/")) := by
      rw [List.mem_filter]
      exact ⟨List.mem_map_of_mem _ he, by rw [heq']; exact hsw2⟩
    unfold filesUnderDir at hstart
    rw [hstart] at hmem2
    exact absurd hmem2 (List.not_mem_nil _)
  have hwf : (fsWrite fs (tempContentDir storeRoot ++ "/" ++ rest) doc.text).files =
      fs.files ++ [(tempContentDir storeRoot ++ "/" ++ rest, doc.text)] := by
    unfold fsWrite
    rw [hnotin, if_neg Bool.false_ne_true]
  refine ⟨?_, hwf, ?_⟩
  · unfold openPreviewCopyStep
    rw [hcheck]
    show (Except.ok
        (fsWrite fs (pathJoin [pathJoin [pathJoin [storeRoot, "run"], "content"],
          pathRelative cwd (pathJoin [workspace, "content"]) doc.fsPath]) doc.text,
          pathJoin [pathJoin [pathJoin [storeRoot, "run"], "content"],
            pathRelative cwd (pathJoin [workspace, "content"]) doc.fsPath]) :
        Except PreErr (SimpleFS × String)) = _
    rw [hRR, hCD, hCR, hdoc, pathRelative_under cwd (workspace ++ "/" ++ "content") rest hWc hrest,
      hdst, htemp]
  · unfold filesUnderDir
    rw [hwf, List.map_append, List.filter_append]
    unfold filesUnderDir at hstart
    rw [hstart, List.nil_append]
    simp only [List.map_cons, List.map_nil, List.filter_cons, hsw2, if_pos]
    rfl

theorem C2_copy_single_file_witness :
    openPreviewCopyStep ⟨[]⟩
        (some ⟨"markdown", "/ws" ++ "/" ++ "content" ++ "/" ++ "sub/new.md", "hello"⟩)
        (some "/ws") (.ok "hugo") "/" "/gs" =
      .ok (fsWrite ⟨[]⟩ (tempContentDir "/gs" ++ "/" ++ "sub/new.md") "hello",
        tempContentDir "/gs" ++ "/" ++ "sub/new.md") ∧
    (fsWrite (⟨[]⟩ : SimpleFS) (tempContentDir "/gs" ++ "/" ++ "sub/new.md") "hello").files =
      ([] : List (String × String)) ++ [(tempContentDir "/gs" ++ "/" ++ "sub/new.md", "hello")] ∧
    filesUnderDir (fsWrite ⟨[]⟩ (tempContentDir "/gs" ++ "/" ++ "sub/new.md") "hello")
        (tempContentDir "/gs") = [tempContentDir "/gs" ++ "/" ++ "sub/new.md"] :=
  C2_copy_single_file ⟨[]⟩ ⟨"markdown", "/ws" ++ "/" ++ "content" ++ "/" ++ "sub/new.md", "hello"⟩
    "/ws" "/gs" "sub/new.md" "/" "hugo" rfl (by decide) (by decide) (by decide) rfl rfl

/-! ## Occurrence and prefix lemmas for `rewriteRootPaths` -/

theorem hasOccur_iff (pat s : List Char) :
    hasOccur pat s = true ↔ ∃ a b, s = a ++ pat ++ b := by
  induction s with
  | nil =>
    simp only [hasOccur]
    constructor
    · intro h
      obtain ⟨b, hb⟩ := List.isPrefixOf_iff_prefix.mp h
      exact ⟨[], b, by simp [← hb]⟩
    · rintro ⟨a, b, hab⟩
      obtain ⟨hap, hb⟩ := List.append_eq_nil.mp hab.symm
      obtain ⟨ha, hp⟩ := List.append_eq_nil.mp hap
      rw [hp]
      exact List.isPrefixOf_iff_prefix.mpr List.nil_prefix
  | cons x xs ih =>
    simp only [hasOccur, Bool.or_eq_true, ih]
    constructor
    · rintro (h | ⟨a, b, hab⟩)
      · obtain ⟨b, hb⟩ := List.isPrefixOf_iff_prefix.mp h
        exact ⟨[], b, by simp [← hb]⟩
      · exact ⟨x :: a, b, by simp [hab]⟩
    · rintro ⟨a, b, hab⟩
      cases a with
      | nil =>
        left
        exact List.isPrefixOf_iff_prefix.mpr ⟨b, by simpa using hab.symm⟩
      | cons y a' =>
        right
        have h2 : x = y ∧ xs = a' ++ pat ++ b := by simpa using hab
        exact ⟨a', b, h2.2⟩

theorem hasOccur_of_middle (u v w s : List Char) (h : hasOccur (u ++ v ++ w) s = true) :
    hasOccur v s = true := by
  rw [hasOccur_iff] at h ⊢
  obtain ⟨a, b, hab⟩ := h
  exact ⟨a ++ u, w ++ b, by simp [hab]⟩

theorem hasOccur_head_notin (p0 : Char) (p1 s : List Char) (h : p0 ∉ s) :
    hasOccur (p0 :: p1) s = false := by
  induction s with
  | nil => rfl
  | cons x xs ih =>
    have hx : p0 ≠ x := fun he => h (by rw [he]; exact List.mem_cons_self _ _)
    have h1 : (p0 :: p1).isPrefixOf (x :: xs) = false := by
      rw [Bool.eq_false_iff]
      intro hpre
      exact hx (List.cons_prefix_cons.mp (List.isPrefixOf_iff_prefix.mp hpre)).1
    have h2 : hasOccur (p0 :: p1) xs = false := ih (fun hm => h (List.mem_cons_of_mem x hm))
    simp [hasOccur, h1, h2]

theorem hasOccur_cons_false (pat : List Char) (x : Char) (xs : List Char)
    (h : hasOccur pat (x :: xs) = false) :
    pat.isPrefixOf (x :: xs) = false ∧ hasOccur pat xs = false := by
  simpa [hasOccur] using h

theorem hasOccur_nil_of_ne (pat : List Char) (h : pat ≠ []) : hasOccur pat [] = false := by
  cases pat with
  | nil => exact absurd rfl h
  | cons p0 p1 => rfl

theorem hasOccur_drop (pat l : List Char) (h : hasOccur pat l = false) :
    ∀ k, hasOccur pat (l.drop k) = false := by
  induction l with
  | nil =>
    intro k
    rw [List.drop_nil]
    exact h
  | cons x xs ih =>
    intro k
    cases k with
    | zero => exact h
    | succ k' => exact ih (hasOccur_cons_false pat x xs h).2 k'

theorem hasOccur_pair_struct (C : List Char) (hC : '"' ∉ C) (hhead : C.head? ≠ some '/') :
    ∀ A : List Char, '"' ∉ A → hasOccur ['"', '/'] (A ++ '"' :: C) = false := by
  intro A
  induction A with
  | nil =>
    intro _
    simp only [List.nil_append]
    have h1 : (['"', '/']).isPrefixOf ('"' :: C) = false := by
      rw [Bool.eq_false_iff]
      intro hpre
      have h3 := (List.cons_prefix_cons.mp (List.isPrefixOf_iff_prefix.mp hpre)).2
      obtain ⟨t, ht⟩ := h3
      apply hhead
      rw [← ht]
      rfl
    have h2 : hasOccur ['"', '/'] C = false := hasOccur_head_notin '"' ['/'] C hC
    simp [hasOccur, h1, h2]
  | cons x A' ih =>
    intro hA
    have hx : x ≠ '"' := fun he => hA (by rw [he]; exact List.mem_cons_self _ _)
    have h1 : (['"', '/']).isPrefixOf (x :: (A' ++ '"' :: C)) = false := by
      rw [Bool.eq_false_iff]
      intro hpre
      exact hx (List.cons_prefix_cons.mp (List.isPrefixOf_iff_prefix.mp hpre)).1.symm
    have h2 := ih (fun hm => hA (List.mem_cons_of_mem x hm))
    simp [hasOccur, h1, h2]

theorem prefix_length_le_left (v A B : List Char) (h : v.isPrefixOf (A ++ B) = true)
    (hlen : v.length ≤ A.length) : v.isPrefixOf A = true := by
  apply List.isPrefixOf_iff_prefix.mpr
  have h3 : v = (A ++ B).take v.length :=
    List.prefix_iff_eq_take.mp (List.isPrefixOf_iff_prefix.mp h)
  rw [List.take_append_of_le_length hlen] at h3
  exact h3 ▸ List.take_prefix _ _

theorem prefix_length_ge_left (v A B : List Char) (h : v.isPrefixOf (A ++ B) = true)
    (hlen : A.length ≤ v.length) : A.isPrefixOf v = true := by
  apply List.isPrefixOf_iff_prefix.mpr
  have h3 : v = (A ++ B).take v.length :=
    List.prefix_iff_eq_take.mp (List.isPrefixOf_iff_prefix.mp h)
  rw [List.take_append_eq_append_take, List.take_of_length_le hlen] at h3
  exact ⟨B.take (v.length - A.length), h3.symm⟩

theorem isPrefixOf_trans {a b c : List Char} (h1 : a.isPrefixOf b = true)
    (h2 : b.isPrefixOf c = true) : a.isPrefixOf c = true :=
  List.isPrefixOf_iff_prefix.mpr
    ((List.isPrefixOf_iff_prefix.mp h1).trans (List.isPrefixOf_iff_prefix.mp h2))

theorem eq_append_of_prefix (v s : List Char) (h : v.isPrefixOf s = true) :
    ∃ t, s = v ++ t := by
  obtain ⟨t, ht⟩ := List.isPrefixOf_iff_prefix.mp h
  exact ⟨t, ht.symm⟩

theorem getLast?_of_append_right (s t : List Char) (ht : t ≠ []) :
    (s ++ t).getLast? = t.getLast? := by
  rcases List.eq_nil_or_concat t with h | ⟨t0, c, hc⟩
  · exact absurd h ht
  · rw [hc, List.concat_eq_append, ← List.append_assoc, List.getLast?_append_cons,
      List.getLast?_append_cons]

theorem mem_of_getLast?_eq {l : List Char} {a : Char} (h : l.getLast? = some a) : a ∈ l := by
  rcases List.eq_nil_or_concat l with h0 | ⟨l0, c, hc⟩
  · rw [h0] at h
    cases h
  · rw [hc, List.concat_eq_append] at h ⊢
    rw [List.getLast?_append_cons] at h
    simp only [List.getLast?_singleton, Option.some.injEq] at h
    simp [h]

theorem occur_append_cases (p A B a b : List Char) (hab : A ++ B = a ++ p ++ b) :
    hasOccur p A = true ∨ hasOccur p B = true ∨
      (∃ k m, p = k ++ m ∧ k ≠ [] ∧ m ≠ [] ∧ (∃ s, A = s ++ k) ∧ ∃ t, B = m ++ t) := by
  rw [List.append_assoc] at hab
  rcases List.append_eq_append_iff.mp hab with ⟨k, hk1, hk2⟩ | ⟨k, hk1, hk2⟩
  · right
    left
    rw [hasOccur_iff]
    exact ⟨k, b, by rw [hk2, List.append_assoc]⟩
  · rcases List.append_eq_append_iff.mp hk2.symm with ⟨u, hu1, hu2⟩ | ⟨u, hu1, hu2⟩
    · rcases hku : k with _ | ⟨k0, k'⟩
      · right
        left
        rw [hasOccur_iff]
        rw [hku, List.nil_append] at hu1
        exact ⟨[], b, by rw [hu2, ← hu1, List.nil_append]⟩
      · rcases huu : u with _ | ⟨u0, u'⟩
        · left
          rw [hasOccur_iff]
          rw [huu, List.append_nil] at hu1
          exact ⟨a, [], by rw [hk1, ← hu1, List.append_nil]⟩
        · right
          right
          refine ⟨k, u, hu1, by rw [hku]; simp, by rw [huu]; simp, ⟨a, hk1⟩, b, hu2⟩
    · left
      rw [hasOccur_iff]
      exact ⟨a, u, by rw [hk1, hu1, List.append_assoc]⟩

/-! ## Step lemmas for the replacement scan -/

theorem replaceAllCharsLit_nil (pat rep : List Char) : replaceAllCharsLit pat rep [] = [] := rfl

theorem replaceAllFuelLit_congr (pat rep : List Char) :
    ∀ f1 f2 l, l.length ≤ f1 → l.length ≤ f2 →
      replaceAllFuelLit pat rep f1 l = replaceAllFuelLit pat rep f2 l := by
  intro f1
  induction f1 with
  | zero =>
    intro f2 l h1 _
    have hl : l = [] := List.eq_nil_of_length_eq_zero (Nat.le_zero.mp h1)
    subst hl
    cases f2 <;> rfl
  | succ f1' ih =>
    intro f2 l h1 h2
    cases l with
    | nil => cases f2 <;> rfl
    | cons x xs =>
      cases f2 with
      | zero => simp at h2
      | succ f2' =>
        simp only [replaceAllFuelLit]
        have hx1 : xs.length ≤ f1' := by simpa using h1
        have hx2 : xs.length ≤ f2' := by simpa using h2
        by_cases hc : pat ≠ [] ∧ pat.isPrefixOf (x :: xs) = true
        · rw [if_pos hc, if_pos hc]
          congr 1
          exact ih f2' _ (le_trans (by rw [List.length_drop]; exact Nat.sub_le _ _) hx1)
            (le_trans (by rw [List.length_drop]; exact Nat.sub_le _ _) hx2)
        · rw [if_neg hc, if_neg hc]
          congr 1
          exact ih f2' xs hx1 hx2

theorem replaceAllCharsLit_cons_match (pat rep : List Char) (x : Char) (xs : List Char)
    (hne : pat ≠ []) (hpre : pat.isPrefixOf (x :: xs) = true) :
    replaceAllCharsLit pat rep (x :: xs) =
      rep ++ replaceAllCharsLit pat rep (xs.drop (pat.length - 1)) := by
  unfold replaceAllCharsLit
  simp only [List.length_cons, replaceAllFuelLit]
  rw [if_pos ⟨hne, hpre⟩]
  congr 1
  exact replaceAllFuelLit_congr pat rep xs.length _ _
    (by rw [List.length_drop]; exact Nat.sub_le _ _) (le_refl _)

theorem replaceAllCharsLit_cons_skip (pat rep : List Char) (x : Char) (xs : List Char)
    (h : ¬(pat ≠ [] ∧ pat.isPrefixOf (x :: xs) = true)) :
    replaceAllCharsLit pat rep (x :: xs) = x :: replaceAllCharsLit pat rep xs := by
  unfold replaceAllCharsLit
  simp only [List.length_cons, replaceAllFuelLit]
  rw [if_neg h]

theorem replaceAllCharsLit_noocc (pat rep : List Char) :
    ∀ l, hasOccur pat l = false → replaceAllCharsLit pat rep l = l := by
  intro l
  induction l with
  | nil => intro _; rfl
  | cons x xs ih =>
    intro h
    obtain ⟨h1, h2⟩ := hasOccur_cons_false pat x xs h
    rw [replaceAllCharsLit_cons_skip pat rep x xs
      (fun hc => Bool.false_ne_true (h1 ▸ hc.2)), ih h2]

theorem replaceAllCharsLit_self (pat : List Char) :
    ∀ n l, l.length ≤ n → replaceAllCharsLit pat pat l = l := by
  intro n
  induction n with
  | zero =>
    intro l h
    have hl : l = [] := List.eq_nil_of_length_eq_zero (Nat.le_zero.mp h)
    subst hl
    rfl
  | succ n ih =>
    intro l h
    cases l with
    | nil => rfl
    | cons x xs =>
      by_cases hc : pat ≠ [] ∧ pat.isPrefixOf (x :: xs) = true
      · obtain ⟨t, ht⟩ := eq_append_of_prefix pat (x :: xs) hc.2
        have hlen1 : pat.length - 1 + 1 = pat.length :=
          Nat.succ_pred_eq_of_pos (List.length_pos.mpr hc.1)
        have hdrop : xs.drop (pat.length - 1) = t := by
          have h2 : (x :: xs).drop pat.length = t := by rw [ht, List.drop_left]
          rw [← hlen1] at h2
          simpa using h2
        have hlist : xs.length + 1 = pat.length + t.length := by
          have := congrArg List.length ht
          simpa using this
        have hpat1 : 1 ≤ pat.length := List.length_pos.mpr hc.1
        have hxs : xs.length + 1 ≤ n + 1 := by simpa using h
        have htlen : t.length ≤ n := by omega
        rw [replaceAllCharsLit_cons_match pat pat x xs hc.1 hc.2, hdrop, ih t htlen]
        exact ht.symm
      · rw [replaceAllCharsLit_cons_skip pat pat x xs hc,
          ih xs (by simpa using Nat.le_of_succ_le_succ (by simpa using h))]

/-- A replacement template containing no `$` expands to itself: the
`GetSubstitution` step of `String.prototype.replace` is the identity on
dollar-free templates. -/
theorem expandDollar_nodollar (matched before after : List Char) :
    ∀ t : List Char, '$' ∉ t → expandDollar matched before after t = t := by
  intro t
  induction t with
  | nil => intro _; rfl
  | cons c rest ih =>
    intro h
    have hc : ¬c = '$' := fun he => h (he ▸ List.mem_cons_self c rest)
    unfold expandDollar
    rw [if_neg hc, ih (fun hm => h (List.mem_cons_of_mem c hm))]

/-- With a dollar-free replacement the full substitution-aware scan
agrees with the literal-insertion scan. -/
theorem replaceAllFuel_nodollar (pat rep : List Char) (h : '$' ∉ rep) :
    ∀ fuel seen l, replaceAllFuel pat rep fuel seen l = replaceAllFuelLit pat rep fuel l := by
  intro fuel
  induction fuel with
  | zero => intro seen l; cases l <;> rfl
  | succ n ih =>
    intro seen l
    cases l with
    | nil => rfl
    | cons x xs =>
      simp only [replaceAllFuel, replaceAllFuelLit]
      by_cases hc : pat ≠ [] ∧ pat.isPrefixOf (x :: xs) = true
      · rw [if_pos hc, if_pos hc, expandDollar_nodollar _ _ _ rep h, ih]
      · rw [if_neg hc, if_neg hc, ih]

/-- Dollar-free replacements make `replaceAllChars` coincide with the
literal scan `replaceAllCharsLit`. -/
theorem replaceAllChars_nodollar (pat rep l : List Char) (h : '$' ∉ rep) :
    replaceAllChars pat rep l = replaceAllCharsLit pat rep l :=
  replaceAllFuel_nodollar pat rep h l.length [] l

/-- Core safety property of one `replace(/q2"\//g, q2" + base + /)` pass:
if the scanned text has no occurrence of the pattern `q ++ "\"/"` (or
that pattern is the one being replaced), the output has none either, and
proper suffixes of that pattern are prefixes of the output only when
they were prefixes of the input. -/
theorem replaceAll_safe (q q2 base : List Char)
    (hqne : q ≠ []) (hqq : '"' ∉ q) (hqs : '/' ∉ q)
    (hq2ne : q2 ≠ []) (hq2q : '"' ∉ q2) (hq2s : '/' ∉ q2)
    (hbne : base ≠ []) (hbq : '"' ∉ base) (hbh : base.head? ≠ some '/')
    (hcross : ∀ j, 1 ≤ j → j < (q ++ ['"', '/']).length →
      q2.isPrefixOf ((q ++ ['"', '/']).drop j) = false) :
    ∀ n L, L.length ≤ n →
      (q = q2 ∨ hasOccur (q ++ ['"', '/']) L = false) →
      hasOccur (q ++ ['"', '/'])
        (replaceAllCharsLit (q2 ++ ['"', '/']) (q2 ++ '"' :: (base ++ ['/'])) L) = false ∧
      ∀ j, 1 ≤ j → j < (q ++ ['"', '/']).length →
        ((q ++ ['"', '/']).drop j).isPrefixOf
          (replaceAllCharsLit (q2 ++ ['"', '/']) (q2 ++ '"' :: (base ++ ['/'])) L) = true →
        ((q ++ ['"', '/']).drop j).isPrefixOf L = true := by
  have hpne : (q ++ ['"', '/']) ≠ [] := by simp
  have hpatne : (q2 ++ ['"', '/']) ≠ [] := by simp
  have hplen : (q ++ ['"', '/']).length = q.length + 2 := by simp
  have hrep_pairfree : hasOccur ['"', '/'] (q2 ++ '"' :: (base ++ ['/'])) = false := by
    apply hasOccur_pair_struct (base ++ ['/'])
    · intro hm
      rcases List.mem_append.mp hm with hm | hm
      · exact hbq hm
      · simp at hm
    · rcases hb : base with _ | ⟨b0, bs⟩
      · exact absurd hb hbne
      · rw [hb] at hbh
        simp only [List.cons_append, List.head?_cons]
        simpa using hbh
    · exact hq2q
  have hrep_noP : hasOccur (q ++ ['"', '/']) (q2 ++ '"' :: (base ++ ['/'])) = false := by
    rw [Bool.eq_false_iff]
    intro hocc
    have h2 : hasOccur ['"', '/'] (q2 ++ '"' :: (base ++ ['/'])) = true := by
      apply hasOccur_of_middle q ['"', '/'] []
      rw [List.append_nil]
      exact hocc
    exact Bool.false_ne_true (hrep_pairfree ▸ h2)
  have hrep_last : (q2 ++ '"' :: (base ++ ['/'])).getLast? = some '/' := by
    rw [show q2 ++ '"' :: (base ++ ['/']) = (q2 ++ '"' :: base) ++ '/' :: [] by simp,
      List.getLast?_append_cons]
    rfl
  have hrep_head : (q2 ++ '"' :: (base ++ ['/'])).head? ≠ some '/' := by
    rw [head?_append_left _ _ hq2ne]
    rcases hq2d : q2 with _ | ⟨c, cs⟩
    · exact absurd hq2d hq2ne
    · simp only [List.head?_cons]
      intro he
      simp only [Option.some.injEq] at he
      apply hq2s
      rw [hq2d, ← he]
      exact List.mem_cons_self _ _
  intro n
  induction n with
  | zero =>
    intro L hlen _
    have hL : L = [] := List.eq_nil_of_length_eq_zero (Nat.le_zero.mp hlen)
    subst hL
    exact ⟨by rw [replaceAllCharsLit_nil]; exact hasOccur_nil_of_ne _ hpne,
      fun j _ _ hpre => by rwa [replaceAllCharsLit_nil] at hpre⟩
  | succ n ih =>
    intro L hlen hok
    cases L with
    | nil =>
      exact ⟨by rw [replaceAllCharsLit_nil]; exact hasOccur_nil_of_ne _ hpne,
        fun j _ _ hpre => by rwa [replaceAllCharsLit_nil] at hpre⟩
    | cons x xs =>
      have hxslen : xs.length ≤ n := by
        simp only [List.length_cons] at hlen
        omega
      by_cases hc : (q2 ++ ['"', '/']) ≠ [] ∧ (q2 ++ ['"', '/']).isPrefixOf (x :: xs) = true
      · rw [replaceAllCharsLit_cons_match _ _ _ _ hc.1 hc.2]
        have hrestlen : (xs.drop ((q2 ++ ['"', '/']).length - 1)).length ≤ n :=
          le_trans (by rw [List.length_drop]; exact Nat.sub_le _ _) hxslen
        have hok' : q = q2 ∨ hasOccur (q ++ ['"', '/'])
            (xs.drop ((q2 ++ ['"', '/']).length - 1)) = false := by
          rcases hok with h | h
          · exact Or.inl h
          · exact Or.inr (hasOccur_drop _ _ (hasOccur_cons_false _ _ _ h).2 _)
        obtain ⟨ih1, ih2⟩ := ih _ hrestlen hok'
        constructor
        · rw [Bool.eq_false_iff]
          intro hocc
          rw [hasOccur_iff] at hocc
          obtain ⟨a, b, hab⟩ := hocc
          rcases occur_append_cases _ _ _ _ _ hab with
            hA | hB | ⟨k, m, hkm, hkne, hmne, ⟨s, hsk⟩, t, hmt⟩
          · exact Bool.false_ne_true (hrep_noP ▸ hA)
          · exact Bool.false_ne_true (ih1 ▸ hB)
          · have hklast : k.getLast? = some '/' := by
              rw [← getLast?_of_append_right s k hkne, ← hsk]
              exact hrep_last
            rcases List.append_eq_append_iff.mp hkm.symm with ⟨u, hu1, hu2⟩ | ⟨u, hu1, hu2⟩
            · have hmem : '/' ∈ k := mem_of_getLast?_eq hklast
              exact hqs (by rw [hu1]; exact List.mem_append_left u hmem)
            · rcases hud : u with _ | ⟨c, u'⟩
              · rw [hud, List.append_nil] at hu1
                exact hqs (mem_of_getLast?_eq (by rw [← hu1]; exact hklast))
              · rcases hu'd : u' with _ | ⟨c2, u''⟩
                · rw [hud, hu'd] at hu2 hu1
                  have hc2 : c = '"' := by
                    have h8 := congrArg List.head? hu2
                    simpa using h8.symm
                  rw [hc2] at hu1
                  have hk2 : k.getLast? = some '"' := by
                    rw [hu1, getLast?_of_append_right q ['"'] (by simp)]
                    rfl
                  rw [hk2] at hklast
                  simp at hklast
                · rw [hud, hu'd] at hu2
                  have hl := congrArg List.length hu2
                  simp only [List.length_cons, List.length_append, List.length_nil] at hl
                  exact hmne (List.eq_nil_of_length_eq_zero (by omega))
        · intro j hj1 hj2 hpre
          exfalso
          by_cases hlen2 : ((q ++ ['"', '/']).drop j).length ≤
              (q2 ++ '"' :: (base ++ ['/'])).length
          · have hpre2 : ((q ++ ['"', '/']).drop j).isPrefixOf
                (q2 ++ '"' :: (base ++ ['/'])) = true :=
              prefix_length_le_left _ _ _ hpre hlen2
            by_cases hjq : j ≤ q.length
            · have hsj : (q ++ ['"', '/']).drop j = q.drop j ++ ['"', '/'] :=
                List.drop_append_of_le_length hjq
              obtain ⟨t2, ht2⟩ := eq_append_of_prefix _ _ hpre2
              have hocc2 : hasOccur ['"', '/'] (q2 ++ '"' :: (base ++ ['/'])) = true := by
                rw [hasOccur_iff]
                exact ⟨q.drop j, t2, by rw [ht2, hsj, List.append_assoc]⟩
              exact Bool.false_ne_true (hrep_pairfree ▸ hocc2)
            · have hj3 : j = q.length + 1 := by
                rw [hplen] at hj2
                omega
              have hsj : (q ++ ['"', '/']).drop j = ['/'] := by
                rw [hj3, ← List.drop_drop, List.drop_left]
                rfl
              rw [hsj] at hpre2
              obtain ⟨t2, ht2⟩ := eq_append_of_prefix _ _ hpre2
              apply hrep_head
              rw [ht2]
              rfl
          · have hge : (q2 ++ '"' :: (base ++ ['/'])).length ≤
                ((q ++ ['"', '/']).drop j).length := le_of_not_le hlen2
            have hq2pre : q2.isPrefixOf ((q ++ ['"', '/']).drop j) = true :=
              isPrefixOf_trans (isPrefixOf_self_append q2 ('"' :: (base ++ ['/'])))
                (prefix_length_ge_left _ _ _ hpre hge)
            exact Bool.false_ne_true ((hcross j hj1 hj2) ▸ hq2pre)
      · rw [replaceAllCharsLit_cons_skip _ _ _ _ hc]
        have hnp : (q2 ++ ['"', '/']).isPrefixOf (x :: xs) = false := by
          rw [Bool.eq_false_iff]
          intro hB
          exact hc ⟨hpatne, hB⟩
        have hok' : q = q2 ∨ hasOccur (q ++ ['"', '/']) xs = false := by
          rcases hok with h | h
          · exact Or.inl h
          · exact Or.inr (hasOccur_cons_false _ _ _ h).2
        obtain ⟨ih1, ih2⟩ := ih xs hxslen hok'
        constructor
        · have hpre_false : (q ++ ['"', '/']).isPrefixOf
              (x :: replaceAllCharsLit (q2 ++ ['"', '/'])
                (q2 ++ '"' :: (base ++ ['/'])) xs) = false := by
            rw [Bool.eq_false_iff]
            intro hpre
            rcases hqd : q with _ | ⟨q0, q'⟩
            · exact hqne hqd
            · rw [hqd, List.cons_append] at hpre
              have h2 := List.cons_prefix_cons.mp (List.isPrefixOf_iff_prefix.mp hpre)
              have h3 : ((q ++ ['"', '/']).drop 1).isPrefixOf
                  (replaceAllCharsLit (q2 ++ ['"', '/'])
                    (q2 ++ '"' :: (base ++ ['/'])) xs) = true := by
                apply List.isPrefixOf_iff_prefix.mpr
                rw [hqd, List.cons_append, List.drop_succ_cons, List.drop_zero]
                exact h2.2
              have h4 := ih2 1 (le_refl 1) (by rw [hplen]; omega) h3
              rw [hqd, List.cons_append, List.drop_succ_cons, List.drop_zero] at h4
              have h5 : (q ++ ['"', '/']).isPrefixOf (x :: xs) = true := by
                rw [hqd, List.cons_append]
                apply List.isPrefixOf_iff_prefix.mpr
                exact List.cons_prefix_cons.mpr ⟨h2.1, List.isPrefixOf_iff_prefix.mp h4⟩
              rcases hok with hsame | hnone
              · rw [hsame] at h5
                exact Bool.false_ne_true (hnp ▸ h5)
              · exact Bool.false_ne_true ((hasOccur_cons_false _ _ _ hnone).1 ▸ h5)
          simp [hasOccur, hpre_false, ih1]
        · intro j hj1 hj2 hpre
          have hsjlen : 0 < ((q ++ ['"', '/']).drop j).length := by
            rw [List.length_drop, hplen]
            omega
          rcases hsj : (q ++ ['"', '/']).drop j with _ | ⟨y, ys⟩
          · rw [hsj] at hsjlen
            simp at hsjlen
          · rw [hsj] at hpre
            have h2 := List.cons_prefix_cons.mp (List.isPrefixOf_iff_prefix.mp hpre)
            have hys : (q ++ ['"', '/']).drop (j + 1) = ys := by
              rw [← List.drop_drop, hsj]
              rfl
            have hys_xs : ys.isPrefixOf xs = true := by
              by_cases hj3 : j + 1 < (q ++ ['"', '/']).length
              · have h6 := ih2 (j + 1) (by omega) hj3
                  (by rw [hys]; exact List.isPrefixOf_iff_prefix.mpr h2.2)
                rw [hys] at h6
                exact h6
              · have hysnil : ys = [] := by
                  have h7 : ((q ++ ['"', '/']).drop (j + 1)).length = 0 := by
                    rw [List.length_drop]
                    omega
                  rw [hys] at h7
                  exact List.eq_nil_of_length_eq_zero h7
                rw [hysnil]
                exact List.isPrefixOf_iff_prefix.mpr List.nil_prefix
            exact List.isPrefixOf_iff_prefix.mpr
              (List.cons_prefix_cons.mpr ⟨h2.1, List.isPrefixOf_iff_prefix.mp hys_xs⟩)

theorem hcross_hh : ∀ j, 1 ≤ j → j < ((['h','r','e','f','='] : List Char) ++ ['"', '/']).length →
    (['h','r','e','f','='] : List Char).isPrefixOf
      (((['h','r','e','f','='] : List Char) ++ ['"', '/']).drop j) = false := by
  intro j hj1 hj2
  have hj7 : j < 7 := by simpa using hj2
  interval_cases j <;> decide

theorem hcross_ss : ∀ j, 1 ≤ j → j < ((['s','r','c','='] : List Char) ++ ['"', '/']).length →
    (['s','r','c','='] : List Char).isPrefixOf
      (((['s','r','c','='] : List Char) ++ ['"', '/']).drop j) = false := by
  intro j hj1 hj2
  have hj6 : j < 6 := by simpa using hj2
  interval_cases j <;> decide

theorem hcross_aa : ∀ j, 1 ≤ j →
    j < ((['a','c','t','i','o','n','='] : List Char) ++ ['"', '/']).length →
    (['a','c','t','i','o','n','='] : List Char).isPrefixOf
      (((['a','c','t','i','o','n','='] : List Char) ++ ['"', '/']).drop j) = false := by
  intro j hj1 hj2
  have hj9 : j < 9 := by simpa using hj2
  interval_cases j <;> decide

theorem hcross_hs : ∀ j, 1 ≤ j → j < ((['h','r','e','f','='] : List Char) ++ ['"', '/']).length →
    (['s','r','c','='] : List Char).isPrefixOf
      (((['h','r','e','f','='] : List Char) ++ ['"', '/']).drop j) = false := by
  intro j hj1 hj2
  have hj7 : j < 7 := by simpa using hj2
  interval_cases j <;> decide

theorem hcross_ha : ∀ j, 1 ≤ j → j < ((['h','r','e','f','='] : List Char) ++ ['"', '/']).length →
    (['a','c','t','i','o','n','='] : List Char).isPrefixOf
      (((['h','r','e','f','='] : List Char) ++ ['"', '/']).drop j) = false := by
  intro j hj1 hj2
  have hj7 : j < 7 := by simpa using hj2
  interval_cases j <;> decide

theorem hcross_sa : ∀ j, 1 ≤ j → j < ((['s','r','c','='] : List Char) ++ ['"', '/']).length →
    (['a','c','t','i','o','n','='] : List Char).isPrefixOf
      (((['s','r','c','='] : List Char) ++ ['"', '/']).drop j) = false := by
  intro j hj1 hj2
  have hj6 : j < 6 := by simpa using hj2
  interval_cases j <;> decide

/-- **C10 (amended).** `rewriteRootPaths` under a benign `rootUri` — no
double quote, not starting with `/`, and containing no `$` (JavaScript
string replacements interpret the substitution sequences `$$`, `$&` and
the before/after-match forms, so a `$` in `rootUri` changes the template
semantics; see `C10_counterexample`): applying it twice equals applying
it once; an input with no occurrence of `href="/`, `src="/` or
`action="/` is returned unchanged; and for a non-empty `rootUri` the
output contains no occurrence of any of the three patterns — every
occurrence has been rewritten. -/
theorem C10_rewriteRootPaths_algebra (html rootUri : String)
    (hq : '"' ∉ rootUri.data) (hh : rootUri.data.head? ≠ some '/')
    (hd : '$' ∉ rootUri.data) :
    rewriteRootPaths (rewriteRootPaths html rootUri) rootUri = rewriteRootPaths html rootUri ∧
    (hasOccur ("href=\"/" : String).data html.data = false →
      hasOccur ("src=\"/" : String).data html.data = false →
      hasOccur ("action=\"/" : String).data html.data = false →
      rewriteRootPaths html rootUri = html) ∧
    (rootUri ≠ "" →
      hasOccur ("href=\"/" : String).data (rewriteRootPaths html rootUri).data = false ∧
      hasOccur ("src=\"/" : String).data (rewriteRootPaths html rootUri).data = false ∧
      hasOccur ("action=\"/" : String).data (rewriteRootPaths html rootUri).data = false) := by
  have hpat_h : ("href=\"/" : String).data = ['h','r','e','f','='] ++ ['"', '/'] := by decide
  have hpat_s : ("src=\"/" : String).data = ['s','r','c','='] ++ ['"', '/'] := by decide
  have hpat_a : ("action=\"/" : String).data =
      ['a','c','t','i','o','n','='] ++ ['"', '/'] := by decide
  have hrep_h : ("href=\"" ++ rootUri ++ "/").data =
      ['h','r','e','f','='] ++ '"' :: (rootUri.data ++ ['/']) := by
    rw [string_data_append, string_data_append,
      show ("href=\"" : String).data = ['h','r','e','f','=','"'] from by decide,
      show ("/" : String).data = ['/'] from by decide]
    simp
  have hrep_s : ("src=\"" ++ rootUri ++ "/").data =
      ['s','r','c','='] ++ '"' :: (rootUri.data ++ ['/']) := by
    rw [string_data_append, string_data_append,
      show ("src=\"" : String).data = ['s','r','c','=','"'] from by decide,
      show ("/" : String).data = ['/'] from by decide]
    simp
  have hrep_a : ("action=\"" ++ rootUri ++ "/").data =
      ['a','c','t','i','o','n','='] ++ '"' :: (rootUri.data ++ ['/']) := by
    rw [string_data_append, string_data_append,
      show ("action=\"" : String).data = ['a','c','t','i','o','n','=','"'] from by decide,
      show ("/" : String).data = ['/'] from by decide]
    simp
  have hdrep : ∀ q : List Char, '$' ∉ q → '$' ∉ (q ++ '"' :: (rootUri.data ++ ['/'])) := by
    intro q hqd hm
    rcases List.mem_append.mp hm with hm | hm
    · exact hqd hm
    · rcases List.mem_cons.mp hm with hm | hm
      · exact absurd hm (by decide)
      · rcases List.mem_append.mp hm with hm | hm
        · exact hd hm
        · exact absurd (List.mem_singleton.mp hm) (by decide)
  have hdata : ∀ s : String, (rewriteRootPaths s rootUri).data =
      replaceAllCharsLit (['a','c','t','i','o','n','='] ++ ['"', '/'])
        (['a','c','t','i','o','n','='] ++ '"' :: (rootUri.data ++ ['/']))
        (replaceAllCharsLit (['s','r','c','='] ++ ['"', '/'])
          (['s','r','c','='] ++ '"' :: (rootUri.data ++ ['/']))
          (replaceAllCharsLit (['h','r','e','f','='] ++ ['"', '/'])
            (['h','r','e','f','='] ++ '"' :: (rootUri.data ++ ['/'])) s.data)) := by
    intro s
    unfold rewriteRootPaths replaceAllStr
    simp only [string_mk_data]
    rw [hrep_h, hrep_s, hrep_a,
      replaceAllChars_nodollar _ _ _ (hdrep ['h','r','e','f','='] (by decide)),
      replaceAllChars_nodollar _ _ _ (hdrep ['s','r','c','='] (by decide)),
      replaceAllChars_nodollar _ _ _ (hdrep ['a','c','t','i','o','n','='] (by decide))]
    rfl
  have hocc3 : rootUri ≠ "" →
      hasOccur (['h','r','e','f','='] ++ ['"', '/'])
        (replaceAllCharsLit (['a','c','t','i','o','n','='] ++ ['"', '/'])
          (['a','c','t','i','o','n','='] ++ '"' :: (rootUri.data ++ ['/']))
          (replaceAllCharsLit (['s','r','c','='] ++ ['"', '/'])
            (['s','r','c','='] ++ '"' :: (rootUri.data ++ ['/']))
            (replaceAllCharsLit (['h','r','e','f','='] ++ ['"', '/'])
              (['h','r','e','f','='] ++ '"' :: (rootUri.data ++ ['/'])) html.data))) = false ∧
      hasOccur (['s','r','c','='] ++ ['"', '/'])
        (replaceAllCharsLit (['a','c','t','i','o','n','='] ++ ['"', '/'])
          (['a','c','t','i','o','n','='] ++ '"' :: (rootUri.data ++ ['/']))
          (replaceAllCharsLit (['s','r','c','='] ++ ['"', '/'])
            (['s','r','c','='] ++ '"' :: (rootUri.data ++ ['/']))
            (replaceAllCharsLit (['h','r','e','f','='] ++ ['"', '/'])
              (['h','r','e','f','='] ++ '"' :: (rootUri.data ++ ['/'])) html.data))) = false ∧
      hasOccur (['a','c','t','i','o','n','='] ++ ['"', '/'])
        (replaceAllCharsLit (['a','c','t','i','o','n','='] ++ ['"', '/'])
          (['a','c','t','i','o','n','='] ++ '"' :: (rootUri.data ++ ['/']))
          (replaceAllCharsLit (['s','r','c','='] ++ ['"', '/'])
            (['s','r','c','='] ++ '"' :: (rootUri.data ++ ['/']))
            (replaceAllCharsLit (['h','r','e','f','='] ++ ['"', '/'])
              (['h','r','e','f','='] ++ '"' :: (rootUri.data ++ ['/'])) html.data))) = false := by
    intro hne
    have hbne : rootUri.data ≠ [] := string_ne_empty_data _ hne
    have h1h := (replaceAll_safe ['h','r','e','f','='] ['h','r','e','f','='] rootUri.data
      (by decide) (by decide) (by decide) (by decide) (by decide) (by decide)
      hbne hq hh hcross_hh html.data.length html.data (le_refl _) (Or.inl rfl)).1
    have h2s := (replaceAll_safe ['s','r','c','='] ['s','r','c','='] rootUri.data
      (by decide) (by decide) (by decide) (by decide) (by decide) (by decide)
      hbne hq hh hcross_ss
      (replaceAllCharsLit (['h','r','e','f','='] ++ ['"', '/'])
        (['h','r','e','f','='] ++ '"' :: (rootUri.data ++ ['/'])) html.data).length
      (replaceAllCharsLit (['h','r','e','f','='] ++ ['"', '/'])
        (['h','r','e','f','='] ++ '"' :: (rootUri.data ++ ['/'])) html.data)
      (le_refl _) (Or.inl rfl)).1
    have h2h := (replaceAll_safe ['h','r','e','f','='] ['s','r','c','='] rootUri.data
      (by decide) (by decide) (by decide) (by decide) (by decide) (by decide)
      hbne hq hh hcross_hs _ _ (le_refl _) (Or.inr h1h)).1
    have h3a := (replaceAll_safe ['a','c','t','i','o','n','='] ['a','c','t','i','o','n','=']
      rootUri.data (by decide) (by decide) (by decide) (by decide) (by decide) (by decide)
      hbne hq hh hcross_aa
      (replaceAllCharsLit (['s','r','c','='] ++ ['"', '/'])
        (['s','r','c','='] ++ '"' :: (rootUri.data ++ ['/']))
        (replaceAllCharsLit (['h','r','e','f','='] ++ ['"', '/'])
          (['h','r','e','f','='] ++ '"' :: (rootUri.data ++ ['/'])) html.data)).length
      (replaceAllCharsLit (['s','r','c','='] ++ ['"', '/'])
        (['s','r','c','='] ++ '"' :: (rootUri.data ++ ['/']))
        (replaceAllCharsLit (['h','r','e','f','='] ++ ['"', '/'])
          (['h','r','e','f','='] ++ '"' :: (rootUri.data ++ ['/'])) html.data))
      (le_refl _) (Or.inl rfl)).1
    have h3h := (replaceAll_safe ['h','r','e','f','='] ['a','c','t','i','o','n','=']
      rootUri.data (by decide) (by decide) (by decide) (by decide) (by decide) (by decide)
      hbne hq hh hcross_ha _ _ (le_refl _) (Or.inr h2h)).1
    have h3s := (replaceAll_safe ['s','r','c','='] ['a','c','t','i','o','n','=']
      rootUri.data (by decide) (by decide) (by decide) (by decide) (by decide) (by decide)
      hbne hq hh hcross_sa _ _ (le_refl _) (Or.inr h2s)).1
    exact ⟨h3h, h3s, h3a⟩
  refine ⟨?_, ?_, ?_⟩
  · by_cases hru : rootUri = ""
    · have hnil : rootUri.data = [] := by rw [hru]
      have hid : ∀ s : String, rewriteRootPaths s rootUri = s := by
        intro s
        apply string_data_inj
        rw [hdata s, hnil,
          show ('"' :: (([] : List Char) ++ ['/'])) = ['"', '/'] from rfl,
          replaceAllCharsLit_self (['h','r','e','f','='] ++ ['"', '/']) s.data.length s.data
            (le_refl _),
          replaceAllCharsLit_self (['s','r','c','='] ++ ['"', '/']) s.data.length s.data
            (le_refl _),
          replaceAllCharsLit_self (['a','c','t','i','o','n','='] ++ ['"', '/']) s.data.length
            s.data (le_refl _)]
      exact hid (rewriteRootPaths html rootUri)
    · obtain ⟨h3h, h3s, h3a⟩ := hocc3 hru
      apply string_data_inj
      rw [hdata (rewriteRootPaths html rootUri), hdata html,
        replaceAllCharsLit_noocc _ _ _ h3h, replaceAllCharsLit_noocc _ _ _ h3s,
        replaceAllCharsLit_noocc _ _ _ h3a]
  · intro hnh hns hna
    rw [hpat_h] at hnh
    rw [hpat_s] at hns
    rw [hpat_a] at hna
    apply string_data_inj
    rw [hdata html, replaceAllCharsLit_noocc _ _ _ hnh, replaceAllCharsLit_noocc _ _ _ hns,
      replaceAllCharsLit_noocc _ _ _ hna]
  · intro hne
    obtain ⟨h3h, h3s, h3a⟩ := hocc3 hne
    refine ⟨?_, ?_, ?_⟩
    · rw [hpat_h, hdata html]
      exact h3h
    · rw [hpat_s, hdata html]
      exact h3s
    · rw [hpat_a, hdata html]
      exact h3a

theorem C10_rewriteRootPaths_algebra_witness :
    (rewriteRootPaths (rewriteRootPaths "<a href=\"/x\">" "r") "r" =
        rewriteRootPaths "<a href=\"/x\">" "r" ∧
      (hasOccur ("href=\"/" : String).data ("<a href=\"/x\">" : String).data = false →
        hasOccur ("src=\"/" : String).data ("<a href=\"/x\">" : String).data = false →
        hasOccur ("action=\"/" : String).data ("<a href=\"/x\">" : String).data = false →
        rewriteRootPaths "<a href=\"/x\">" "r" = "<a href=\"/x\">") ∧
      (("r" : String) ≠ "" →
        hasOccur ("href=\"/" : String).data (rewriteRootPaths "<a href=\"/x\">" "r").data =
          false ∧
        hasOccur ("src=\"/" : String).data (rewriteRootPaths "<a href=\"/x\">" "r").data =
          false ∧
        hasOccur ("action=\"/" : String).data (rewriteRootPaths "<a href=\"/x\">" "r").data =
          false)) :=
  C10_rewriteRootPaths_algebra "<a href=\"/x\">" "r" (by decide) (by decide) (by decide)

/-- **C10, counterexample to the claim as stated.**  JavaScript string
replacements interpret `$`-substitution sequences, so the original
benignity condition (no `"` in `rootUri`, `rootUri` not starting with
`/`) is not enough: with `rootUri = "$&"` the replacement template
`href="$&/` re-inserts the matched text `href="/`.  The rewritten html
still contains an occurrence of `href="/`, and applying the rewrite a
second time changes the result again — refuting both the
no-occurrences-remain and the idempotency conjuncts. -/
theorem C10_counterexample :
    '"' ∉ ("$&" : String).data ∧
    ("$&" : String).data.head? ≠ some '/' ∧
    rewriteRootPaths "<a href=\"/x\">" "$&" = "<a href=\"href=\"//x\">" ∧
    hasOccur ("href=\"/" : String).data
      (rewriteRootPaths "<a href=\"/x\">" "$&").data = true ∧
    rewriteRootPaths (rewriteRootPaths "<a href=\"/x\">" "$&") "$&" ≠
      rewriteRootPaths "<a href=\"/x\">" "$&" :=
  ⟨by decide, by decide, by decide, by decide, by decide⟩

end HugoPreview
